import Mathlib

/- Verification of the order-wire encoding core of the go-hyperliquid client.

Embedded sources:
  * src/hyperliquid/convert.go        (numeric canonicalizer and wire builder)
  * src/hyperliquid/hyperliquid.go    (NextNonce generator)
  * src/hyperliquid/exchange_types.go (request envelope and data model)

Modelling conventions: Go float64 values are modelled as exact rationals ℚ
(the mathematical value held by a finite double), Go integers as ℤ, strings as
Lean String/List Char.  Arithmetic that Go performs on floats is carried out
exactly on the numerator/denominator of the rational so that every definition
evaluates by kernel reduction; bridge lemmas relate these integer formulas to
the intended floor/ceiling semantics. -/

/- ------------------------------------------------------------------ -/
/- Data model (src/hyperliquid/exchange_types.go)                      -/
/- ------------------------------------------------------------------ -/

/-- AssetInfo from exchange_types.go: SzDecimals, WeiDecimals, AssetID, SpotName. -/
structure AssetInfo where
  SzDecimals : ℤ
  WeiDecimals : ℤ
  AssetID : ℤ
  SpotName : String
  deriving Repr, DecidableEq

/-- The Go zero value of AssetInfo, produced by indexing a map at a missing key. -/
def AssetInfo.zero : AssetInfo := ⟨0, 0, 0, ""⟩

/-- LimitOrderType from exchange_types.go. -/
structure LimitOrderType where
  Tif : String
  deriving Repr, DecidableEq

/-- TriggerOrderType from exchange_types.go. -/
structure TriggerOrderType where
  IsMarket : Bool
  TriggerPx : String
  TpSl : String
  deriving Repr, DecidableEq

/-- OrderType from exchange_types.go: two nullable pointers, modelled as Options. -/
structure OrderType where
  Limit : Option LimitOrderType
  Trigger : Option TriggerOrderType
  deriving Repr, DecidableEq

/-- OrderTypeWire from exchange_types.go: same nullable-pointer shape as OrderType. -/
structure OrderTypeWire where
  Limit : Option LimitOrderType
  Trigger : Option TriggerOrderType
  deriving Repr, DecidableEq

/-- OrderRequest from exchange_types.go.  Sz and LimitPx are float64 fields,
modelled as exact rationals. -/
structure OrderRequest where
  OrderID : Option ℤ
  Coin : String
  IsBuy : Bool
  Sz : ℚ
  LimitPx : ℚ
  Typ : OrderType
  ReduceOnly : Bool
  Cloid : String
  deriving Repr, DecidableEq

/-- OrderWire from exchange_types.go: price and size already canonicalized to
strings. -/
structure OrderWire where
  Asset : ℤ
  IsBuy : Bool
  LimitPx : String
  SizePx : String
  ReduceOnly : Bool
  Typ : OrderTypeWire
  Cloid : String
  deriving Repr, DecidableEq

/- ------------------------------------------------------------------ -/
/- Exact integer arithmetic standing in for Go float operations        -/
/- ------------------------------------------------------------------ -/

/-- Go `x == math.Trunc(x)`: the rational is an integer. -/
def isIntQ (x : ℚ) : Bool := x.den == 1

/-- Go `int64(x)` for a float64 value: truncation toward zero, computed on the
numerator and denominator (for x ≥ 0 the integer division `num / den` is the
floor; for x < 0 we negate the floor of `-x`, which is the ceiling). -/
def goTrunc (x : ℚ) : ℤ :=
  if 0 ≤ x.num then x.num / (x.den : ℤ) else -((-x.num) / (x.den : ℤ))

/-- Round half away from zero, the semantics of Go `math.Round`, in its
floor form.  Used as the specification side of `roundScaled`. -/
def roundHalfAway (y : ℚ) : ℤ := if 0 ≤ y then ⌊y + 1 / 2⌋ else -⌊-y + 1 / 2⌋

/-- Go `math.Round(x * factor)` where `factor = pow10 d` (the pow10 loop of
convert.go), computed exactly on the numerator and denominator so that it
evaluates by kernel reduction.  `roundScaled_eq` identifies it with
`roundHalfAway (x * 10 ^ d)`. -/
def roundScaled (x : ℚ) (d : ℕ) : ℤ :=
  if 0 ≤ x.num then (2 * (x.num * 10 ^ d) + (x.den : ℤ)) / (2 * (x.den : ℤ))
  else -((2 * (-(x.num * 10 ^ d)) + (x.den : ℤ)) / (2 * (x.den : ℤ)))

lemma intDiv_den_eq_floor (x : ℚ) : x.num / (x.den : ℤ) = ⌊x⌋ := Rat.floor_def.symm

lemma isIntQ_iff (x : ℚ) : isIntQ x = true ↔ x.den = 1 := by
  simp [isIntQ]

lemma goTrunc_of_nonneg {x : ℚ} (h : 0 ≤ x) : goTrunc x = ⌊x⌋ := by
  have hn : 0 ≤ x.num := Rat.num_nonneg.mpr h
  simp [goTrunc, hn, intDiv_den_eq_floor]

lemma goTrunc_of_neg {x : ℚ} (h : x < 0) : goTrunc x = ⌈x⌉ := by
  have hn : ¬ 0 ≤ x.num := by
    simpa [Rat.num_nonneg] using not_le.mpr h
  have hfl : (-x.num) / ((-x).den : ℤ) = ⌊-x⌋ := by
    simpa [Rat.neg_num x] using intDiv_den_eq_floor (-x)
  have : goTrunc x = -⌊-x⌋ := by
    simp only [goTrunc, if_neg hn]
    rw [show ((x.den : ℤ)) = (((-x).den : ℤ)) by simp [Rat.neg_den x], hfl]
  rw [this, Int.floor_neg, neg_neg]

lemma half_add_eq (x : ℚ) (d : ℕ) :
    x * 10 ^ d + 1 / 2 =
      ((2 * (x.num * 10 ^ d) + (x.den : ℤ) : ℤ) : ℚ) / ((2 * x.den : ℕ) : ℚ) := by
  have hden : ((x.den : ℚ)) ≠ 0 := by
    exact_mod_cast (Nat.cast_ne_zero).mpr x.den_nz
  have hxd : x * (x.den : ℚ) = (x.num : ℚ) := by
    field_simp [Rat.num_div_den x]
  have hden2 : ((2 * x.den : ℕ) : ℚ) ≠ 0 := by
    push_cast
    intro hcon
    apply hden
    linarith
  rw [eq_div_iff hden2]
  push_cast
  linear_combination (2 * (10 : ℚ) ^ d) * hxd

lemma roundScaled_eq (x : ℚ) (d : ℕ) : roundScaled x d = roundHalfAway (x * 10 ^ d) := by
  have hpow : (0 : ℚ) < 10 ^ d := by positivity
  by_cases h : 0 ≤ x
  · have hn : 0 ≤ x.num := Rat.num_nonneg.mpr h
    have hy : 0 ≤ x * 10 ^ d := mul_nonneg h hpow.le
    rw [roundScaled, if_pos hn, roundHalfAway, if_pos hy, half_add_eq x d,
      Rat.floor_intCast_div_natCast]
    push_cast
    ring_nf
  · have hn : ¬ 0 ≤ x.num := by simpa [Rat.num_nonneg] using h
    have hx : x < 0 := not_le.mp h
    have hy : ¬ 0 ≤ x * 10 ^ d := by
      exact not_le.mpr (mul_neg_of_neg_of_pos hx hpow)
    rw [roundScaled, if_neg hn, roundHalfAway, if_neg hy]
    have hneg : -(x * 10 ^ d) + 1 / 2 = (-x) * 10 ^ d + 1 / 2 := by ring
    rw [hneg, half_add_eq (-x) d, Rat.floor_intCast_div_natCast]
    have h1 : (-x).num = -x.num := Rat.neg_num x
    have h2 : (-x).den = x.den := Rat.neg_den x
    rw [h1, h2]
    push_cast
    ring_nf

/-- roundHalfAway is odd. -/
lemma roundHalfAway_neg (y : ℚ) : roundHalfAway (-y) = -roundHalfAway y := by
  rcases lt_trichotomy y 0 with h | h | h
  · have h1 : 0 ≤ -y := by linarith
    have h2 : ¬ 0 ≤ y := not_le.mpr h
    simp [roundHalfAway, h1, h2]
  · subst h
    have h0 : ⌊(2⁻¹ : ℚ)⌋ = 0 := by
      rw [Int.floor_eq_zero_iff]
      constructor <;> norm_num
    simp [roundHalfAway, h0]
  · have h1 : ¬ 0 ≤ -y := by simpa using not_le.mpr (neg_neg_iff_pos.mpr h)
    have h2 : 0 ≤ y := h.le
    simp [roundHalfAway, h1, h2, neg_neg]

lemma roundHalfAway_nonneg {y : ℚ} (h : 0 ≤ y) : 0 ≤ roundHalfAway y := by
  rw [roundHalfAway, if_pos h]
  have : (0 : ℚ) ≤ y + 1 / 2 := by linarith
  exact_mod_cast Int.floor_nonneg.mpr this

/-- Magnitude bound for rounding: |roundHalfAway y| ≤ |y| + 1/2 as rationals. -/
lemma roundHalfAway_le {y : ℚ} (h : 0 ≤ y) : (roundHalfAway y : ℚ) ≤ y + 1 / 2 := by
  rw [roundHalfAway, if_pos h]
  exact Int.floor_le _

/- ------------------------------------------------------------------ -/
/- Fuel-based digit helpers (kernel-reducible) and their bridges       -/
/- ------------------------------------------------------------------ -/

/-- Fuel-based base-10 logarithm; `natLog10` supplies enough fuel.  Models the
digit count computed by `int(math.Floor(math.Log10(x))) + 1` for x ≥ 1. -/
def logAux : ℕ → ℕ → ℕ
  | 0, _ => 0
  | f + 1, n => if n < 10 then 0 else logAux f (n / 10) + 1

/-- The function `Nat.log 10`, computed with structural recursion so it kernel-reduces. -/
def natLog10 (n : ℕ) : ℕ := logAux n n

lemma logAux_eq (f : ℕ) : ∀ n, n ≤ f → logAux f n = Nat.log 10 n := by
  induction f with
  | zero =>
    intro n hn
    interval_cases n
    simp [logAux]
  | succ f ih =>
    intro n hn
    by_cases h : n < 10
    · simp [logAux, h, Nat.log_of_lt h]
    · push_neg at h
      have hrec : n / 10 ≤ f := by
        have h1 : n / 10 < n := Nat.div_lt_self (by omega) (by omega)
        omega
      simp only [logAux, if_neg (not_lt.mpr h)]
      rw [ih _ hrec, Nat.log_of_one_lt_of_le (by omega) h]

lemma natLog10_eq (n : ℕ) : natLog10 n = Nat.log 10 n := logAux_eq n n le_rfl

/-- Fuel-based base-10 ceiling logarithm; `natClog10` supplies enough fuel.
Models `int(math.Ceil(-math.Log10(x)))` for 0 < x < 1 via the reciprocal. -/
def clogAux : ℕ → ℕ → ℕ
  | 0, _ => 0
  | f + 1, n => if n ≤ 1 then 0 else clogAux f ((n + 9) / 10) + 1

/-- The function `Nat.clog 10`, computed with structural recursion so it kernel-reduces. -/
def natClog10 (n : ℕ) : ℕ := clogAux n n

lemma clogAux_eq (f : ℕ) : ∀ n, n ≤ f → clogAux f n = Nat.clog 10 n := by
  induction f with
  | zero =>
    intro n hn
    interval_cases n
    simp [clogAux]
  | succ f ih =>
    intro n hn
    by_cases h : n ≤ 1
    · simp [clogAux, h, Nat.clog_of_right_le_one h]
    · push_neg at h
      have hrec : (n + 9) / 10 ≤ f := by omega
      simp only [clogAux, if_neg (not_le.mpr h)]
      rw [ih _ hrec, Nat.clog_of_two_le (by omega) (show 2 ≤ n by omega)]
      have h9 : n + 10 - 1 = n + 9 := by omega
      rw [h9]

lemma natClog10_eq (n : ℕ) : natClog10 n = Nat.clog 10 n := clogAux_eq n n le_rfl

/-- Fuel-based big-endian decimal digits of a natural number; `natChars`
supplies enough fuel.  Empty on n = 0 (handled by `natChars`). -/
def natCharsAux : ℕ → ℕ → List Char
  | 0, _ => []
  | _ + 1, 0 => []
  | f + 1, n + 1 => natCharsAux f ((n + 1) / 10) ++ [Nat.digitChar ((n + 1) % 10)]

/-- Decimal digit string of a natural number, as Go strconv renders it. -/
def natChars (n : ℕ) : List Char := if n = 0 then ['0'] else natCharsAux n n

/-- Decimal rendering of an integer, as Go strconv.FormatInt renders it. -/
def intChars (n : ℤ) : List Char :=
  if n < 0 then '-' :: natChars n.natAbs else natChars n.toNat

lemma natCharsAux_eq (f : ℕ) :
    ∀ n, n ≤ f → natCharsAux f n = ((Nat.digits 10 n).map Nat.digitChar).reverse := by
  induction f with
  | zero =>
    intro n hn
    interval_cases n
    simp [natCharsAux]
  | succ f ih =>
    intro n hn
    match n with
    | 0 => simp [natCharsAux]
    | m + 1 =>
      have hrec : (m + 1) / 10 ≤ f := by
        have h1 : (m + 1) / 10 < m + 1 := Nat.div_lt_self (by omega) (by omega)
        omega
      have hd : Nat.digits 10 (m + 1) = (m + 1) % 10 :: Nat.digits 10 ((m + 1) / 10) :=
        Nat.digits_def' (by omega) (by omega)
      simp only [natCharsAux, ih _ hrec, hd, List.map_cons, List.reverse_cons]

lemma natChars_eq {n : ℕ} (h : n ≠ 0) :
    natChars n = ((Nat.digits 10 n).map Nat.digitChar).reverse := by
  simp only [natChars, if_neg h]
  exact natCharsAux_eq n n le_rfl

/- ------------------------------------------------------------------ -/
/- Fixed-point formatting and trimming (convert.go)                    -/
/- ------------------------------------------------------------------ -/

/-- Zero-padded decimal rendering of r to exactly d digits (for r < 10^d):
the fractional block printed by strconv.FormatFloat with precision d ≥ 1. -/
def padZeros (d r : ℕ) : List Char :=
  List.replicate (d - (natChars r).length) '0' ++ natChars r

/-- strconv.FormatFloat(v, 'f', d, 64) on the exact value v = ±(mag / 10^d):
sign, integer part, and (when d ≥ 1) a '.' followed by exactly d fractional
digits.  `neg` records the sign bit of the float, so that Go's negative zero
renders with a leading minus exactly as FormatFloat does. -/
def formatFixed (neg : Bool) (mag d : ℕ) : List Char :=
  let body := if d = 0 then natChars mag
    else natChars (mag / 10 ^ d) ++ '.' :: padZeros d (mag % 10 ^ d)
  if neg then '-' :: body else body

/-- strings.TrimRight with a predicate cutset: drop matching characters from
the right end. -/
def trimRight (p : Char → Bool) (l : List Char) : List Char :=
  (l.reverse.dropWhile p).reverse

/-- strings.TrimRight(s, "0"). -/
def trimZeros : List Char → List Char := trimRight (· == '0')

/-- strings.TrimRight(s, "."). -/
def trimDot : List Char → List Char := trimRight (· == '.')

/- ------------------------------------------------------------------ -/
/- The numeric canonicalizer (convert.go, PriceToWire / SizeToWire)    -/
/- ------------------------------------------------------------------ -/

/-- PERP_MAX_DECIMALS.  Modelled from the spec: the constant declarations are
not among the provided sources; §4.1/§4.2 of the specification fix the
perpetual ceiling to 6. -/
def PERP_MAX_DECIMALS : ℤ := 6

/-- SPOT_MAX_DECIMALS.  Modelled from the spec: the constant declarations are
not among the provided sources; §4.1/§4.2 of the specification fix the spot
ceiling to 8. -/
def SPOT_MAX_DECIMALS : ℤ := 8

/-- The count `digits := int(math.Floor(math.Log10(x))) + 1` of PriceToWire, evaluated
exactly for x ≥ 1: the number of decimal digits of ⌊x⌋ = x.num / x.den. -/
def intDigits10 (x : ℚ) : ℤ := (natLog10 (x.num / (x.den : ℤ)).toNat : ℤ) + 1

/-- The exponent `int(math.Ceil(-math.Log10(x)))` of PriceToWire, evaluated
exactly for 0 < x as the least e with x·10^e ≥ 1, i.e. Nat.clog 10 ⌈x⁻¹⌉
(the inner expression is ⌈x.den / x.num⌉ as integer division).  For x ≤ 0,
math.Log10 yields NaN and Go's float-to-int conversion of NaN is
platform-defined; we embed the amd64 result, minInt64 = -2^63. -/
def ceilNegLog10 (x : ℚ) : ℤ :=
  if 0 < x.num then (natClog10 (-((-(x.den : ℤ)) / x.num)).toNat : ℤ)
  else -(2 ^ 63)

/-- The decimal budget of PriceToWire: allowedTick = maxDecimals - szDecimals,
allowedSig from the 5-significant-digit rule, and the final budget
max 0 (min allowedTick allowedSig), exactly as computed at convert.go
lines 185-210. -/
def allowedDecimals (x : ℚ) (maxDecimals szDecimals : ℤ) : ℤ :=
  max 0 (min (maxDecimals - szDecimals)
    (if 1 ≤ x then max 0 (5 - intDigits10 x) else 4 + ceilNegLog10 x))

/-- PriceToWire (convert.go lines 179-224).  An integral price returns
strconv.FormatInt(int64(x), 10); otherwise the price is rounded to the
allowed number of decimals, formatted with that fixed precision, and the
fractional part (when present) is stripped of trailing zeros and of a
dangling decimal point. -/
def PriceToWire (x : ℚ) (maxDecimals szDecimals : ℤ) : String :=
  if isIntQ x then ⟨intChars (goTrunc x)⟩
  else
    let d := (allowedDecimals x maxDecimals szDecimals).toNat
    let s := formatFixed (decide (x < 0)) (roundScaled x d).natAbs d
    if '.' ∈ s then ⟨trimDot (trimZeros s)⟩ else ⟨s⟩

/-- SizeToWire (convert.go lines 229-246).  szDecimals == 0 or an integral
size returns strconv.FormatInt(int64(x), 10); otherwise the size is rounded
to szDecimals decimals, formatted with that fixed precision, and trailing
zeros plus a dangling decimal point are stripped (unconditionally, unlike
PriceToWire).  A negative szDecimals cannot reach the fixed-point formatter
meaningfully in Go (FormatFloat then uses shortest form); it is modelled via
toNat, which agrees on the claims' domain szDecimals ≥ 0. -/
def SizeToWire (x : ℚ) (szDecimals : ℤ) : String :=
  if szDecimals = 0 then ⟨intChars (goTrunc x)⟩
  else if isIntQ x then ⟨intChars (goTrunc x)⟩
  else
    let d := szDecimals.toNat
    ⟨trimDot (trimZeros (formatFixed (decide (x < 0)) (roundScaled x d).natAbs d))⟩

/- ------------------------------------------------------------------ -/
/- The order wire builder (convert.go)                                 -/
/- ------------------------------------------------------------------ -/

/-- isSpot (convert.go lines 61-63): strings.ContainsAny(req.Coin, "@-"). -/
def OrderRequest.isSpot (req : OrderRequest) : Bool :=
  req.Coin.data.any fun c => c == '@' || c == '-'

/-- OrderTypeToWire (convert.go lines 100-119): Limit wins when present,
then Trigger; when neither pointer is set the Go zero value OrderTypeWire{}
(both fields nil) is returned. -/
def OrderTypeToWire (orderType : OrderType) : OrderTypeWire :=
  match orderType.Limit with
  | some l => { Limit := some ⟨l.Tif⟩, Trigger := none }
  | none =>
    match orderType.Trigger with
    | some t => { Limit := none, Trigger := some ⟨t.IsMarket, t.TriggerPx, t.TpSl⟩ }
    | none => { Limit := none, Trigger := none }

/-- ToWire (convert.go lines 81-97): resolve the asset id (spot offset 10000)
and the decimal ceiling from the market kind, then canonicalize price and
size. -/
def OrderRequest.ToWire (req : OrderRequest) (info : AssetInfo) : OrderWire :=
  { Asset := if req.isSpot then info.AssetID + 10000 else info.AssetID
    IsBuy := req.IsBuy
    LimitPx := PriceToWire req.LimitPx
      (if req.isSpot then SPOT_MAX_DECIMALS else PERP_MAX_DECIMALS) info.SzDecimals
    SizePx := SizeToWire req.Sz info.SzDecimals
    ReduceOnly := req.ReduceOnly
    Typ := OrderTypeToWire req.Typ
    Cloid := req.Cloid }

/-- ToWireMeta (convert.go lines 67-70): `info := meta[req.Coin]` is a Go map
index, which yields the zero value of AssetInfo when the key is absent; the
request is then converted with that info.  The metadata map is modelled as a
partial lookup function. -/
def OrderRequest.ToWireMeta (req : OrderRequest) (meta : String → Option AssetInfo) :
    OrderWire :=
  req.ToWire ((meta req.Coin).getD AssetInfo.zero)

/- ------------------------------------------------------------------ -/
/- The nonce generator (hyperliquid.go, NextNonce)                     -/
/- ------------------------------------------------------------------ -/

/-- One call of NextNonce (hyperliquid.go lines 165-175) under the lock:
state is the package-level lastNonce (int64, zero-initialized); `now` is the
millisecond clock value read during the call.  `now <= lastNonce` increments
the counter, otherwise the clock value is adopted; the new state is also the
returned nonce (Go returns uint64(lastNonce), value-preserving from state 0
since the state stays positive). -/
def nextNonceStep (lastNonce now : ℤ) : ℤ :=
  if now ≤ lastNonce then lastNonce + 1 else now

/-- The sequence of nonces returned by successive NextNonce calls observing
the given clock readings, from a given lastNonce state (the process starts at
state 0). -/
def nonceRun (lastNonce : ℤ) : List ℤ → List ℤ
  | [] => []
  | c :: cs => nextNonceStep lastNonce c :: nonceRun (nextNonceStep lastNonce c) cs

/- ------------------------------------------------------------------ -/
/- The request envelope (exchange_types.go, ExchangeRequest)           -/
/- ------------------------------------------------------------------ -/

/-- RsvSignature from exchange_types.go. -/
structure RsvSignature where
  R : String
  S : String
  V : ℕ
  deriving Repr, DecidableEq

/-- ExchangeRequest from exchange_types.go.  Action is `any` in Go and its
serialized form is opaque to the envelope claim, so it is carried here as a
pre-rendered string; VaultAddress is a *string, modelled as an Option. -/
structure ExchangeRequest where
  Action : String
  Nonce : ℤ
  Signature : RsvSignature
  VaultAddress : Option String
  deriving Repr, DecidableEq

/-- The ordered key/value pairs a tag-honoring encoder emits for an
ExchangeRequest (struct tags at exchange_types.go lines 14-19): action, nonce
and signature are always present; `vaultAddress` carries `omitempty` on a
*string, whose Go empty value is the nil pointer, so the field is emitted
exactly when the pointer is non-nil — a pointer to "" is non-nil and is
emitted with an empty-string value. -/
def ExchangeRequest.fields (r : ExchangeRequest) : List (String × String) :=
  [("action", r.Action), ("nonce", toString r.Nonce),
   ("signature", r.Signature.R ++ r.Signature.S ++ toString r.Signature.V)] ++
  (match r.VaultAddress with
   | none => []
   | some v => [("vaultAddress", v)])


/- ------------------------------------------------------------------ -/
/- Nonce generator lemmas                                              -/
/- ------------------------------------------------------------------ -/

lemma nextNonceStep_gt (lastNonce now : ℤ) : lastNonce < nextNonceStep lastNonce now := by
  rw [nextNonceStep]
  split
  · exact lt_add_one lastNonce
  · exact lt_of_not_le (by assumption)

lemma nonceRun_chain (clocks : List ℤ) :
    ∀ lastNonce : ℤ, List.Chain' (· < ·) (nonceRun lastNonce clocks) ∧
      ∀ v ∈ nonceRun lastNonce clocks, lastNonce < v := by
  induction clocks with
  | nil => intro lastNonce; simp [nonceRun]
  | cons c cs ih =>
    intro lastNonce
    obtain ⟨hchain, hall⟩ := ih (nextNonceStep lastNonce c)
    constructor
    · rw [nonceRun]
      refine List.chain'_cons'.mpr ⟨?_, hchain⟩
      intro b hb
      exact hall b (List.mem_of_mem_head? hb)
    · intro v hv
      rw [nonceRun] at hv
      rcases List.mem_cons.mp hv with h | h
      · rw [h]; exact nextNonceStep_gt lastNonce c
      · exact (nextNonceStep_gt lastNonce c).trans (hall v h)

/-- Claim C2: whatever millisecond clock values NextNonce observes call after
call (including a stalled or backward clock), each returned nonce is strictly
greater than the previously returned one — the generator adopts the clock
value when it exceeds the last issued value and otherwise increments by 1,
starting from the zero-initialized counter — so the returned sequence is
strictly increasing, never repeats, and stays positive (making the final
uint64 cast value-preserving). -/
theorem nextNonce_strictly_increasing (clocks : List ℤ) :
    List.Chain' (· < ·) (nonceRun 0 clocks) ∧
    List.Pairwise (· < ·) (nonceRun 0 clocks) ∧
    ∀ v ∈ nonceRun 0 clocks, 0 < v := by
  obtain ⟨hchain, hall⟩ := nonceRun_chain clocks 0
  exact ⟨hchain, List.chain'_iff_pairwise.mp hchain, hall⟩

/-- Closed instance of `nextNonce_strictly_increasing` on a concrete clock
trace containing a stall (5, 5) and a backward step (3) after 5. -/
theorem nextNonce_strictly_increasing_witness :
    List.Chain' (· < ·) (nonceRun 0 [5, 5, 3, 10]) ∧
    List.Pairwise (· < ·) (nonceRun 0 [5, 5, 3, 10]) ∧
    ∀ v ∈ nonceRun 0 [5, 5, 3, 10], 0 < v :=
  nextNonce_strictly_increasing [5, 5, 3, 10]

/- ------------------------------------------------------------------ -/
/- Claim C1: missing symbol in ToWireMeta                              -/
/- ------------------------------------------------------------------ -/

/-- Claim C1 (counterexample): converting an order for the symbol "ETH"
through a metadata map that does not contain it does not fail — it silently
returns an OrderWire whose asset id is the zero value 0. -/
theorem toWireMeta_missing_symbol_counterexample :
    (OrderRequest.ToWireMeta ⟨none, "ETH", true, 1, 1, ⟨some ⟨"Gtc"⟩, none⟩, false, ""⟩
      (fun _ => none)).Asset = 0 := by decide

/-- Claim C1 (amended): ToWireMeta performs a Go map index, so a symbol absent
from the metadata map yields the zero-valued AssetInfo and the conversion
proceeds without any error: the resulting wire carries asset id 0 for a
perpetual symbol and 10000 for a spot symbol. -/
theorem toWireMeta_missing_symbol (req : OrderRequest)
    (meta : String → Option AssetInfo) (h : meta req.Coin = none) :
    req.ToWireMeta meta = req.ToWire AssetInfo.zero ∧
    (req.ToWireMeta meta).Asset = (if req.isSpot then 10000 else 0) := by
  have hw : req.ToWireMeta meta = req.ToWire AssetInfo.zero := by
    rw [OrderRequest.ToWireMeta, h]
    rfl
  refine ⟨hw, ?_⟩
  rw [hw, OrderRequest.ToWire]
  cases hs : req.isSpot <;> simp [hs, AssetInfo.zero]

/-- Closed instance of `toWireMeta_missing_symbol` at a perpetual symbol and
the empty metadata map. -/
theorem toWireMeta_missing_symbol_witness :
    (OrderRequest.ToWireMeta ⟨none, "SOL", true, 1, 2, ⟨some ⟨"Gtc"⟩, none⟩, false, ""⟩
        (fun _ => none)).Asset =
      (if OrderRequest.isSpot ⟨none, "SOL", true, 1, 2, ⟨some ⟨"Gtc"⟩, none⟩, false, ""⟩
        then 10000 else 0) :=
  (toWireMeta_missing_symbol _ _ rfl).2

/- ------------------------------------------------------------------ -/
/- Claim C4: spot classification, asset-id offset, decimal ceilings    -/
/- ------------------------------------------------------------------ -/

/-- Claim C4: ToWire classifies a request as spot exactly when its symbol
contains '@' or '-'; a spot request gets asset id AssetInfo.AssetID + 10000
and price budget maxDecimals = 8, a perpetual request keeps AssetInfo.AssetID
and uses maxDecimals = 6. -/
theorem toWire_spot_perp (req : OrderRequest) (info : AssetInfo) :
    (req.isSpot = true ↔ ('@' ∈ req.Coin.data ∨ '-' ∈ req.Coin.data)) ∧
    (req.ToWire info).Asset =
      (if req.isSpot then info.AssetID + 10000 else info.AssetID) ∧
    (req.ToWire info).LimitPx =
      PriceToWire req.LimitPx (if req.isSpot then 8 else 6) info.SzDecimals ∧
    (req.ToWire info).SizePx = SizeToWire req.Sz info.SzDecimals := by
  refine ⟨?_, rfl, ?_, rfl⟩
  · rw [OrderRequest.isSpot, List.any_eq_true]
    constructor
    · rintro ⟨c, hc, hor⟩
      rcases Bool.or_eq_true_iff.mp hor with h | h
      · exact Or.inl (by rwa [← eq_of_beq h])
      · exact Or.inr (by rwa [← eq_of_beq h])
    · rintro (h | h)
      · exact ⟨'@', h, by simp⟩
      · exact ⟨'-', h, by simp⟩
  · rw [OrderRequest.ToWire]
    cases hs : req.isSpot <;>
      simp [hs, SPOT_MAX_DECIMALS, PERP_MAX_DECIMALS]

/- ------------------------------------------------------------------ -/
/- Claim C8: malformed order type                                      -/
/- ------------------------------------------------------------------ -/

/-- Claim C8 (counterexample): an OrderType with neither variant populated is
converted without any error into the Go zero value OrderTypeWire{} — a wire
with BOTH variants absent, not exactly one. -/
theorem orderTypeToWire_malformed_counterexample :
    OrderTypeToWire ⟨none, none⟩ = ⟨none, none⟩ ∧
    (OrderTypeToWire ⟨none, none⟩).Limit = none ∧
    (OrderTypeToWire ⟨none, none⟩).Trigger = none :=
  ⟨rfl, rfl, rfl⟩

/-- Claim C8 (amended): OrderTypeToWire reports no error; a malformed input
(neither Limit nor Trigger populated) silently maps to the zero
OrderTypeWire{} with both variants absent, while an input with a populated
variant maps to a wire with exactly that variant populated (Limit taking
precedence). -/
theorem orderTypeToWire_spec (ot : OrderType) :
    (ot.Limit = none → ot.Trigger = none → OrderTypeToWire ot = ⟨none, none⟩) ∧
    (∀ l, ot.Limit = some l →
      (OrderTypeToWire ot).Limit = some ⟨l.Tif⟩ ∧
      (OrderTypeToWire ot).Trigger = none) ∧
    (∀ t, ot.Limit = none → ot.Trigger = some t →
      (OrderTypeToWire ot).Limit = none ∧
      (OrderTypeToWire ot).Trigger = some ⟨t.IsMarket, t.TriggerPx, t.TpSl⟩) := by
  obtain ⟨lim, trig⟩ := ot
  cases lim <;> cases trig <;> simp [OrderTypeToWire]

/-- Closed instance of `orderTypeToWire_spec` at a malformed input and at a
limit order type. -/
theorem orderTypeToWire_spec_witness :
    OrderTypeToWire ⟨none, none⟩ = ⟨none, none⟩ ∧
    (OrderTypeToWire ⟨some ⟨"Alo"⟩, none⟩).Limit = some ⟨"Alo"⟩ :=
  ⟨(orderTypeToWire_spec ⟨none, none⟩).1 rfl rfl,
    ((orderTypeToWire_spec ⟨some ⟨"Alo"⟩, none⟩).2.1 ⟨"Alo"⟩ rfl).1⟩

/- ------------------------------------------------------------------ -/
/- Claim C9: vault-address field omission                              -/
/- ------------------------------------------------------------------ -/

/-- Claim C9: an ExchangeRequest without a vault address serializes with no
vaultAddress field at all (the omitempty nil-pointer rule), while one with a
vault address — even the empty string — includes the field; in particular the
serialized forms of "absent" and "empty string" differ. -/
theorem exchangeRequest_vault_omission (a : String) (n : ℤ) (sig : RsvSignature)
    (v : Option String) :
    ("vaultAddress" ∈ (ExchangeRequest.fields ⟨a, n, sig, v⟩).map Prod.fst ↔
      v.isSome = true) ∧
    ExchangeRequest.fields ⟨a, n, sig, some ""⟩ ≠
      ExchangeRequest.fields ⟨a, n, sig, none⟩ := by
  constructor
  · cases v <;> simp [ExchangeRequest.fields]
  · intro hcon
    have := congrArg List.length hcon
    simp [ExchangeRequest.fields] at this

/- ------------------------------------------------------------------ -/
/- Claim C10: SizeToWire with szDecimals = 0 truncates                 -/
/- ------------------------------------------------------------------ -/

/-- Claim C10: the szDecimals == 0 branch of SizeToWire converts x to int64
before any rounding, so a non-integer size is truncated toward zero: 1.7
yields "1" (not the half-away rounding "2") and -0.9 yields "0". -/
theorem sizeToWire_zero_decimals (x : ℚ) :
    SizeToWire x 0 = ⟨intChars (goTrunc x)⟩ ∧
    SizeToWire (mkRat 17 10) 0 = "1" ∧
    SizeToWire (mkRat (-9) 10) 0 = "0" ∧
    SizeToWire (mkRat 17 10) 0 ≠ ⟨intChars (roundScaled (mkRat 17 10) 0)⟩ := by
  refine ⟨rfl, by decide, by decide, by decide⟩

/- ------------------------------------------------------------------ -/
/- Generic dropWhile / trimRight lemmas                                -/
/- ------------------------------------------------------------------ -/

lemma dropWhile_append_char (p : Char → Bool) (l₁ l₂ : List Char) :
    (l₁ ++ l₂).dropWhile p =
      if (l₁.dropWhile p).isEmpty then l₂.dropWhile p else l₁.dropWhile p ++ l₂ := by
  induction l₁ with
  | nil => simp
  | cons a t ih =>
    by_cases hp : p a = true
    · simpa [List.dropWhile_cons, hp] using ih
    · simp [List.dropWhile_cons, hp]

lemma head?_dropWhile_char (p : Char → Bool) (l : List Char) :
    ∀ c, (l.dropWhile p).head? = some c → p c = false := by
  induction l with
  | nil => simp
  | cons a t ih =>
    intro c hc
    by_cases hp : p a = true
    · rw [List.dropWhile_cons, if_pos hp] at hc
      exact ih c hc
    · rw [List.dropWhile_cons, if_neg hp] at hc
      simp only [List.head?_cons, Option.some.injEq] at hc
      rw [← hc]
      cases h2 : p a with
      | false => rfl
      | true => exact absurd h2 hp

lemma dropWhile_length_le_char (p : Char → Bool) (l : List Char) :
    (l.dropWhile p).length ≤ l.length := by
  induction l with
  | nil => simp
  | cons a t ih =>
    by_cases hp : p a = true
    · rw [List.dropWhile_cons, if_pos hp]
      exact ih.trans (Nat.le_succ _)
    · rw [List.dropWhile_cons, if_neg hp]

lemma dropWhile_idem_char (p : Char → Bool) (l : List Char) :
    (l.dropWhile p).dropWhile p = l.dropWhile p := by
  cases h : l.dropWhile p with
  | nil => simp
  | cons a t =>
    have ha : p a = false := head?_dropWhile_char p l a (by rw [h]; rfl)
    rw [List.dropWhile_cons, if_neg (by simp [ha])]

lemma mem_dropWhile_char (p : Char → Bool) (l : List Char) {c : Char}
    (hc : c ∈ l.dropWhile p) : c ∈ l := by
  induction l with
  | nil => simpa using hc
  | cons a t ih =>
    by_cases hp : p a = true
    · rw [List.dropWhile_cons, if_pos hp] at hc
      exact List.mem_cons_of_mem a (ih hc)
    · rw [List.dropWhile_cons, if_neg hp] at hc
      exact hc

lemma head?_reverse_getLast? (l : List Char) : l.reverse.head? = l.getLast? := by
  cases hrev : l.reverse with
  | nil =>
    have : l = [] := by simpa using congrArg List.reverse hrev
    simp [this]
  | cons a t =>
    have hl : l = t.reverse ++ [a] := by
      rw [← List.reverse_reverse l, hrev]
      simp
    rw [hl]
    simp [List.getLast?_concat]

lemma trimRight_append (p : Char → Bool) (l₁ l₂ : List Char) :
    trimRight p (l₁ ++ l₂) =
      if trimRight p l₂ = [] then trimRight p l₁ else l₁ ++ trimRight p l₂ := by
  have hkey : (l₂.reverse.dropWhile p).isEmpty = true ↔ trimRight p l₂ = [] := by
    rw [List.isEmpty_iff, trimRight]
    constructor
    · intro h
      simp [h]
    · intro h
      simpa using congrArg List.reverse h
  rw [trimRight, List.reverse_append, dropWhile_append_char]
  by_cases h : trimRight p l₂ = []
  · rw [if_pos (hkey.mpr h), if_pos h]
    rfl
  · rw [if_neg (fun hc => h (hkey.mp hc)), if_neg h, List.reverse_append,
      List.reverse_reverse]
    rfl

lemma trimRight_length_le (p : Char → Bool) (l : List Char) :
    (trimRight p l).length ≤ l.length := by
  rw [trimRight, List.length_reverse]
  calc (l.reverse.dropWhile p).length ≤ l.reverse.length := dropWhile_length_le_char p _
  _ = l.length := List.length_reverse l

lemma trimRight_idem (p : Char → Bool) (l : List Char) :
    trimRight p (trimRight p l) = trimRight p l := by
  rw [trimRight, trimRight, List.reverse_reverse, dropWhile_idem_char]

lemma trimRight_getLast {p : Char → Bool} {l : List Char} (h : trimRight p l ≠ []) :
    ∀ c, (trimRight p l).getLast? = some c → p c = false := by
  intro c hc
  rw [trimRight, ← head?_reverse_getLast?, List.reverse_reverse] at hc
  exact head?_dropWhile_char p l.reverse c hc

lemma mem_trimRight {p : Char → Bool} {l : List Char} {c : Char}
    (hc : c ∈ trimRight p l) : c ∈ l := by
  rw [trimRight, List.mem_reverse] at hc
  exact List.mem_reverse.mp (mem_dropWhile_char p l.reverse hc)

lemma trimRight_eq_self {p : Char → Bool} {l : List Char}
    (h : ∀ c, l.getLast? = some c → p c = false) : trimRight p l = l := by
  cases hrev : l.reverse with
  | nil =>
    have : l = [] := by simpa using congrArg List.reverse hrev
    simp [this, trimRight]
  | cons a t =>
    have hl : l.getLast? = some a := by
      rw [← head?_reverse_getLast?, hrev]
      rfl
    have hpa : p a = false := h a hl
    rw [trimRight, hrev, List.dropWhile_cons, if_neg (by simp [hpa]), ← hrev,
      List.reverse_reverse]

lemma trimRight_eq_nil_iff (p : Char → Bool) (l : List Char) :
    trimRight p l = [] ↔ ∀ c ∈ l, p c = true := by
  rw [trimRight]
  constructor
  · intro h c hc
    have hrev : l.reverse.dropWhile p = [] := by
      simpa using congrArg List.reverse h
    have := List.dropWhile_eq_nil_iff.mp hrev
    exact this c (List.mem_reverse.mpr hc)
  · intro h
    have : l.reverse.dropWhile p = [] :=
      List.dropWhile_eq_nil_iff.mpr fun c hc => h c (List.mem_reverse.mp hc)
    simp [this]

lemma trimRight_cons (p : Char → Bool) (a : Char) (l : List Char)
    (h : trimRight p l ≠ []) : trimRight p (a :: l) = a :: trimRight p l := by
  have : a :: l = [a] ++ l := rfl
  rw [this, trimRight_append, if_neg h]
  rfl

/- ------------------------------------------------------------------ -/
/- natChars / padZeros facts                                           -/
/- ------------------------------------------------------------------ -/

lemma getLast?_mem_char {l : List Char} {c : Char} (h : l.getLast? = some c) : c ∈ l := by
  obtain ⟨hne, rfl⟩ := List.mem_getLast?_eq_getLast (show c ∈ l.getLast? from h)
  exact List.getLast_mem hne

lemma digitChar_facts : ∀ m, m < 10 →
    Nat.digitChar m ≠ '.' ∧ Nat.digitChar m ≠ '-' ∧ (Nat.digitChar m = '0' ↔ m = 0) := by
  decide

lemma natChars_ne_nil (n : ℕ) : natChars n ≠ [] := by
  by_cases h : n = 0
  · subst h
    simp [natChars]
  · rw [natChars_eq h]
    simp [Nat.digits_ne_nil_iff_ne_zero.mpr h]

lemma mem_natChars {n : ℕ} {c : Char} (hc : c ∈ natChars n) :
    ∃ m, m < 10 ∧ c = Nat.digitChar m := by
  by_cases h : n = 0
  · subst h
    have h0 : natChars 0 = ['0'] := rfl
    rw [h0, List.mem_singleton] at hc
    exact ⟨0, by omega, hc⟩
  · rw [natChars_eq h, List.mem_reverse] at hc
    obtain ⟨m, hm, rfl⟩ := List.mem_map.mp hc
    exact ⟨m, Nat.digits_lt_base (by omega) hm, rfl⟩

lemma mem_natChars_ne_dot {n : ℕ} {c : Char} (hc : c ∈ natChars n) : c ≠ '.' := by
  obtain ⟨m, hm, rfl⟩ := mem_natChars hc
  exact (digitChar_facts m hm).1

lemma mem_natChars_ne_minus {n : ℕ} {c : Char} (hc : c ∈ natChars n) : c ≠ '-' := by
  obtain ⟨m, hm, rfl⟩ := mem_natChars hc
  exact (digitChar_facts m hm).2.1

lemma natChars_head_ne_zero {n : ℕ} (hn : n ≠ 0) :
    ∀ c, (natChars n).head? = some c → c ≠ '0' := by
  intro c hc
  rw [natChars_eq hn, head?_reverse_getLast?, List.getLast?_map] at hc
  have hne : Nat.digits 10 n ≠ [] := Nat.digits_ne_nil_iff_ne_zero.mpr hn
  rw [List.getLast?_eq_getLast_of_ne_nil hne] at hc
  simp only [Option.map_some', Option.some.injEq] at hc
  have hlast : (Nat.digits 10 n).getLast hne ≠ 0 := Nat.getLast_digit_ne_zero 10 hn
  have hlt : (Nat.digits 10 n).getLast hne < 10 :=
    Nat.digits_lt_base (by omega) (List.getLast_mem hne)
  rw [← hc]
  intro hcon
  exact hlast (((digitChar_facts _ hlt).2.2).mp hcon)

lemma natChars_length {n : ℕ} (hn : n ≠ 0) :
    (natChars n).length = Nat.log 10 n + 1 := by
  rw [natChars_eq hn]
  simp [Nat.digits_len 10 n (by omega) hn]

lemma natChars_length_le {n k : ℕ} (h : n < 10 ^ k) (hn : n ≠ 0) :
    (natChars n).length ≤ k := by
  rw [natChars_length hn]
  have := Nat.log_lt_of_lt_pow hn h
  omega

lemma padZeros_length {d r : ℕ} (hr : r < 10 ^ d) (hd : 1 ≤ d) :
    (padZeros d r).length = d := by
  have hlen : (natChars r).length ≤ d := by
    by_cases h : r = 0
    · subst h
      simpa [natChars] using hd
    · exact natChars_length_le hr h
  rw [padZeros, List.length_append, List.length_replicate]
  omega

lemma mem_padZeros {d r : ℕ} {c : Char} (hc : c ∈ padZeros d r) :
    ∃ m, m < 10 ∧ c = Nat.digitChar m := by
  rw [padZeros, List.mem_append] at hc
  rcases hc with hc | hc
  · exact ⟨0, by omega, by simpa using (List.eq_of_mem_replicate hc)⟩
  · exact mem_natChars hc

lemma mem_padZeros_ne_dot {d r : ℕ} {c : Char} (hc : c ∈ padZeros d r) : c ≠ '.' := by
  obtain ⟨m, hm, rfl⟩ := mem_padZeros hc
  exact (digitChar_facts m hm).1

/- ------------------------------------------------------------------ -/
/- Digit-count predicates on rendered strings                          -/
/- ------------------------------------------------------------------ -/

/-- Number of digits after the decimal point of a rendered numeric string. -/
def fracCount (l : List Char) : ℕ :=
  if '.' ∈ l then (l.reverse.takeWhile fun c => c != '.').length else 0

/-- Number of significant digits of a rendered numeric string, read as the
parsed number has them: the sign and the decimal point are discarded, then
leading zeros, then trailing zeros. -/
def sigCount (l : List Char) : ℕ :=
  (trimZeros ((l.filter fun c => !(c == '-' || c == '.')).dropWhile (· == '0'))).length

lemma dropWhile_eq_self_of_head {p : Char → Bool} {l : List Char}
    (h : ∀ c, l.head? = some c → p c = false) : l.dropWhile p = l := by
  cases l with
  | nil => rfl
  | cons a t =>
    rw [List.dropWhile_cons, if_neg]
    simp [h a rfl]

lemma trimRight_single (p : Char → Bool) (a : Char) :
    trimRight p [a] = if p a then [] else [a] := by
  by_cases hp : p a = true
  · simp [trimRight, hp]
  · simp only [Bool.not_eq_true] at hp
    simp [trimRight, List.dropWhile_cons, hp]

lemma trimRight_cons_full (p : Char → Bool) (a : Char) (l : List Char) :
    trimRight p (a :: l) =
      if trimRight p l = [] then trimRight p [a] else a :: trimRight p l := by
  have h1 : a :: l = [a] ++ l := rfl
  rw [h1, trimRight_append]
  by_cases h : trimRight p l = []
  · rw [if_pos h, if_pos h]
  · rw [if_neg h, if_neg h]
    rfl

lemma trimRight_head? {p : Char → Bool} {a : Char} {l : List Char}
    (h : trimRight p (a :: l) ≠ []) : (trimRight p (a :: l)).head? = some a := by
  rw [trimRight_cons_full] at h ⊢
  by_cases h2 : trimRight p l = []
  · rw [if_pos h2] at h ⊢
    rw [trimRight_single] at h ⊢
    by_cases hp : p a = true
    · exact absurd (if_pos hp) h
    · rw [if_neg hp]
      rfl
  · rw [if_neg h2]
    rfl

lemma takeWhile_all_stop {p : Char → Bool} {l₁ l₂ : List Char} {a : Char}
    (h1 : ∀ c ∈ l₁, p c = true) (h2 : p a = false) :
    (l₁ ++ a :: l₂).takeWhile p = l₁ := by
  induction l₁ with
  | nil => simp [List.takeWhile_cons, h2]
  | cons b t ih =>
    have hb : p b = true := h1 b (List.mem_cons_self b t)
    rw [List.cons_append, List.takeWhile_cons, if_pos hb,
      ih fun c hc => h1 c (List.mem_cons_of_mem b hc)]

/- ------------------------------------------------------------------ -/
/- Shape of the formatted-and-trimmed output                           -/
/- ------------------------------------------------------------------ -/

lemma trimZeros_append (l₁ l₂ : List Char) :
    trimZeros (l₁ ++ l₂) =
      if trimZeros l₂ = [] then trimZeros l₁ else l₁ ++ trimZeros l₂ :=
  trimRight_append _ l₁ l₂

lemma trimDot_append (l₁ l₂ : List Char) :
    trimDot (l₁ ++ l₂) =
      if trimDot l₂ = [] then trimDot l₁ else l₁ ++ trimDot l₂ :=
  trimRight_append _ l₁ l₂

lemma trimZeros_eq_self {l : List Char}
    (h : ∀ c, l.getLast? = some c → (c == '0') = false) : trimZeros l = l :=
  trimRight_eq_self h

lemma trimDot_eq_self {l : List Char}
    (h : ∀ c, l.getLast? = some c → (c == '.') = false) : trimDot l = l :=
  trimRight_eq_self h

lemma mem_trimZeros {l : List Char} {c : Char} (hc : c ∈ trimZeros l) : c ∈ l :=
  mem_trimRight hc

lemma trimZeros_len_le (l : List Char) : (trimZeros l).length ≤ l.length :=
  trimRight_length_le _ l

lemma trimZeros_trimZeros (l : List Char) : trimZeros (trimZeros l) = trimZeros l :=
  trimRight_idem _ l

lemma getLast?_append_ne_nil {l₁ l₂ : List Char} (h : l₂ ≠ []) :
    (l₁ ++ l₂).getLast? = l₂.getLast? := by
  rw [List.getLast?_append, List.getLast?_eq_getLast_of_ne_nil h]
  rfl

lemma trimZeros_natChars_append_dot (q : ℕ) :
    trimZeros (natChars q ++ ['.']) = natChars q ++ ['.'] := by
  apply trimZeros_eq_self
  intro c hc
  rw [List.getLast?_concat] at hc
  obtain rfl : '.' = c := by simpa using hc
  decide

/-- Shape of the canonicalizer output in the fractional branch: trimming the
fixed-precision rendering keeps the sign and the integer digits, replaces the
padded fractional block by its trailing-zero-stripped form, and drops the dot
when nothing of the fraction survives. -/
lemma trim_shape (neg : Bool) (mag d : ℕ) (hd : 1 ≤ d) :
    trimDot (trimZeros (formatFixed neg mag d)) =
      (if neg then ['-'] else []) ++
      (if trimZeros (padZeros d (mag % 10 ^ d)) = []
        then natChars (mag / 10 ^ d)
        else natChars (mag / 10 ^ d) ++ '.' :: trimZeros (padZeros d (mag % 10 ^ d))) := by
  set q := mag / 10 ^ d with hq
  set r := mag % 10 ^ d with hr
  set A := natChars q with hA
  set P := padZeros d r with hP
  set T := trimZeros P with hT
  have hAne : A ≠ [] := natChars_ne_nil q
  have hbody : formatFixed neg mag d = (if neg then ['-'] else []) ++ (A ++ '.' :: P) := by
    rw [formatFixed]
    have hd0 : ¬ d = 0 := by omega
    cases neg <;> simp [hd0]
  have hstep1 : trimZeros (A ++ '.' :: P) = if T = [] then A ++ ['.'] else A ++ '.' :: T := by
    have hassoc : A ++ '.' :: P = (A ++ ['.']) ++ P := by simp
    rw [hassoc, trimZeros_append, ← hT]
    by_cases h : T = []
    · rw [if_pos h, if_pos h]
      exact trimZeros_natChars_append_dot q
    · rw [if_neg h, if_neg h]
      simp
  have hstep1ne : trimZeros (A ++ '.' :: P) ≠ [] := by
    rw [hstep1]
    by_cases h : T = [] <;> simp [h, hAne]
  have hstep2 : trimDot (if T = [] then A ++ ['.'] else A ++ '.' :: T) =
      if T = [] then A else A ++ '.' :: T := by
    by_cases h : T = []
    · rw [if_pos h, if_pos h]
      have hdot : trimDot (A ++ ['.']) = trimDot A := by
        rw [trimDot_append]
        rw [if_pos (by decide)]
      rw [hdot]
      apply trimDot_eq_self
      intro c hc
      have hcm : c ∈ A := getLast?_mem_char hc
      simpa using mem_natChars_ne_dot hcm
    · rw [if_neg h, if_neg h]
      apply trimDot_eq_self
      intro c hc
      rw [show A ++ '.' :: T = (A ++ ['.']) ++ T by simp, getLast?_append_ne_nil h] at hc
      have hcm : c ∈ T := getLast?_mem_char hc
      simpa using mem_padZeros_ne_dot (mem_trimZeros hcm)
  have hstep2ne : trimDot (if T = [] then A ++ ['.'] else A ++ '.' :: T) ≠ [] := by
    rw [hstep2]
    by_cases h : T = [] <;> simp [h, hAne]
  rw [hbody]
  cases neg
  · show trimDot (trimZeros ([] ++ (A ++ '.' :: P))) =
      [] ++ (if T = [] then A else A ++ '.' :: T)
    rw [List.nil_append, List.nil_append, hstep1, hstep2]
  · show trimDot (trimZeros ('-' :: (A ++ '.' :: P))) =
      '-' :: (if T = [] then A else A ++ '.' :: T)
    have h1 : trimZeros ('-' :: (A ++ '.' :: P)) = '-' :: trimZeros (A ++ '.' :: P) :=
      trimRight_cons _ '-' _ hstep1ne
    rw [h1, hstep1]
    have h2 : trimDot ('-' :: (if T = [] then A ++ ['.'] else A ++ '.' :: T)) =
        '-' :: trimDot (if T = [] then A ++ ['.'] else A ++ '.' :: T) :=
      trimRight_cons _ '-' _ (by
        show trimDot (if T = [] then A ++ ['.'] else A ++ '.' :: T) ≠ []
        rw [hstep2]
        by_cases h : T = [] <;> simp [h, hAne])
    rw [h2, hstep2]

/- ------------------------------------------------------------------ -/
/- Digit-count properties of the trimmed output                        -/
/- ------------------------------------------------------------------ -/

lemma dot_not_mem_sgn_natChars (neg : Bool) (q : ℕ) :
    '.' ∉ (if neg then ['-'] else []) ++ natChars q := by
  intro hmem
  rcases List.mem_append.mp hmem with h | h
  · cases neg <;> simp_all
  · exact mem_natChars_ne_dot h rfl

lemma formatTrim_frac_le (neg : Bool) (mag d : ℕ) (hd : 1 ≤ d) :
    fracCount (trimDot (trimZeros (formatFixed neg mag d))) ≤ d := by
  rw [trim_shape neg mag d hd]
  set q := mag / 10 ^ d with hq
  set r := mag % 10 ^ d with hr
  set T := trimZeros (padZeros d r) with hT
  by_cases h : T = []
  · rw [if_pos h, fracCount, if_neg (dot_not_mem_sgn_natChars neg q)]
    exact Nat.zero_le d
  · rw [if_neg h]
    have hTlen : T.length ≤ d := by
      calc T.length ≤ (padZeros d r).length := trimZeros_len_le _
      _ = d := padZeros_length (Nat.mod_lt _ (by positivity)) hd
    have hmem : '.' ∈ (if neg then ['-'] else []) ++ (natChars q ++ '.' :: T) := by
      apply List.mem_append.mpr
      refine Or.inr (List.mem_append.mpr (Or.inr ?_))
      exact List.mem_cons_self _ _
    rw [fracCount, if_pos hmem]
    have hrev : ((if neg then ['-'] else []) ++ (natChars q ++ '.' :: T)).reverse =
        T.reverse ++ '.' :: ((natChars q).reverse ++ (if neg then ['-'] else []).reverse) := by
      simp
    rw [hrev, takeWhile_all_stop ?_ (by decide)]
    · simpa using hTlen
    · intro c hc
      rw [List.mem_reverse] at hc
      have : c ≠ '.' := mem_padZeros_ne_dot (mem_trimZeros hc)
      simpa using this

lemma formatTrim_last_not_dot (neg : Bool) (mag d : ℕ) (hd : 1 ≤ d) :
    ∀ c, (trimDot (trimZeros (formatFixed neg mag d))).getLast? = some c → c ≠ '.' := by
  rw [trim_shape neg mag d hd]
  set q := mag / 10 ^ d with hq
  set r := mag % 10 ^ d with hr
  set T := trimZeros (padZeros d r) with hT
  intro c hc
  by_cases h : T = []
  · rw [if_pos h, getLast?_append_ne_nil (natChars_ne_nil q)] at hc
    exact mem_natChars_ne_dot (getLast?_mem_char hc)
  · rw [if_neg h, show (if neg then ['-'] else []) ++ (natChars q ++ '.' :: T) =
      ((if neg then ['-'] else []) ++ natChars q ++ ['.']) ++ T by simp,
      getLast?_append_ne_nil h] at hc
    exact mem_padZeros_ne_dot (mem_trimZeros (getLast?_mem_char hc))

lemma formatTrim_last_not_zero (neg : Bool) (mag d : ℕ) (hd : 1 ≤ d)
    (hdot : '.' ∈ trimDot (trimZeros (formatFixed neg mag d))) :
    ∀ c, (trimDot (trimZeros (formatFixed neg mag d))).getLast? = some c → c ≠ '0' := by
  rw [trim_shape neg mag d hd] at hdot ⊢
  set q := mag / 10 ^ d with hq
  set r := mag % 10 ^ d with hr
  set T := trimZeros (padZeros d r) with hT
  intro c hc
  by_cases h : T = []
  · rw [if_pos h] at hdot
    exact absurd hdot (dot_not_mem_sgn_natChars neg q)
  · rw [if_neg h, show (if neg then ['-'] else []) ++ (natChars q ++ '.' :: T) =
      ((if neg then ['-'] else []) ++ natChars q ++ ['.']) ++ T by simp,
      getLast?_append_ne_nil h] at hc
    have hcm : c ∈ T := getLast?_mem_char hc
    have := @trimRight_getLast (fun c => c == '0') (padZeros d r) h c hc
    simpa using this

/- ------------------------------------------------------------------ -/
/- Significant-digit bounds                                            -/
/- ------------------------------------------------------------------ -/

lemma sig_core {m : ℕ} (h : m ≤ 10 ^ 5) :
    (trimZeros ((natChars m).dropWhile (· == '0'))).length ≤ 5 := by
  rcases Nat.lt_or_ge m (10 ^ 5) with hlt | hge
  · by_cases h0 : m = 0
    · subst h0
      decide
    · have hdw : (natChars m).dropWhile (· == '0') = natChars m := by
        apply dropWhile_eq_self_of_head
        intro c hc
        simpa using natChars_head_ne_zero h0 c hc
      rw [hdw]
      calc (trimZeros (natChars m)).length ≤ (natChars m).length := trimZeros_len_le _
      _ ≤ 5 := natChars_length_le hlt h0
  · have hm : m = 10 ^ 5 := le_antisymm h hge
    subst hm
    decide

lemma natChars_dropWhile_self {m : ℕ} (h0 : m ≠ 0) :
    (natChars m).dropWhile (· == '0') = natChars m := by
  apply dropWhile_eq_self_of_head
  intro c hc
  simpa using natChars_head_ne_zero h0 c hc

lemma filter_pred_digits {l : List Char}
    (h : ∀ c ∈ l, ∃ m, m < 10 ∧ c = Nat.digitChar m) :
    l.filter (fun c => !(c == '-' || c == '.')) = l := by
  apply List.filter_eq_self.mpr
  intro c hc
  obtain ⟨m, hm, rfl⟩ := h c hc
  have hf := digitChar_facts m hm
  have h1 : (Nat.digitChar m == '-') = false := beq_eq_false_iff_ne.mpr hf.2.1
  have h2 : (Nat.digitChar m == '.') = false := beq_eq_false_iff_ne.mpr hf.1
  simp [h1, h2]

lemma filter_pred_sgn_digits (neg : Bool) {l : List Char}
    (h : ∀ c ∈ l, ∃ m, m < 10 ∧ c = Nat.digitChar m) :
    (((if neg then ['-'] else []) ++ l).filter (fun c => !(c == '-' || c == '.'))) = l := by
  rw [List.filter_append]
  have h1 : ((if neg then ['-'] else []) : List Char).filter
      (fun c => !(c == '-' || c == '.')) = [] := by
    cases neg <;> rfl
  rw [h1, filter_pred_digits h]
  rfl

lemma filter_pred_out (neg : Bool) (q : ℕ) (T : List Char)
    (hTd : ∀ c ∈ T, ∃ m, m < 10 ∧ c = Nat.digitChar m) :
    (((if neg then ['-'] else []) ++ (natChars q ++ '.' :: T)).filter
      (fun c => !(c == '-' || c == '.'))) = natChars q ++ T := by
  rw [List.filter_append, List.filter_append]
  have h1 : ((if neg then ['-'] else []) : List Char).filter
      (fun c => !(c == '-' || c == '.')) = [] := by
    cases neg <;> rfl
  have h2 : (natChars q).filter (fun c => !(c == '-' || c == '.')) = natChars q :=
    filter_pred_digits fun c hc => mem_natChars hc
  have h3 : ('.' :: T).filter (fun c => !(c == '-' || c == '.')) = T := by
    rw [List.filter_cons, if_neg (by decide)]
    exact filter_pred_digits hTd
  rw [h1, h2, h3]
  rfl

/-- Sign plus plain integer digits: at most 5 significant digits when the
magnitude is at most 10^5. -/
lemma sig_sgn_natChars (neg : Bool) {mag : ℕ} (hmag : mag ≤ 10 ^ 5) :
    sigCount ((if neg then ['-'] else []) ++ natChars mag) ≤ 5 := by
  rw [sigCount, filter_pred_sgn_digits neg fun c hc => mem_natChars hc]
  exact sig_core hmag

/-- The trimmed fixed-point rendering of mag / 10^d has at most 5 significant
digits whenever mag ≤ 10^5. -/
lemma sig_out_le (neg : Bool) (mag d : ℕ) (hd : 1 ≤ d) (hmag : mag ≤ 10 ^ 5) :
    sigCount (trimDot (trimZeros (formatFixed neg mag d))) ≤ 5 := by
  rw [trim_shape neg mag d hd]
  set q := mag / 10 ^ d with hq
  set r := mag % 10 ^ d with hr
  set P := padZeros d r with hP
  set T := trimZeros P with hT
  have hrlt : r < 10 ^ d := Nat.mod_lt _ (by positivity)
  have hmag_eq : 10 ^ d * q + r = mag := Nat.div_add_mod mag (10 ^ d)
  have hTd : ∀ c ∈ T, ∃ m, m < 10 ∧ c = Nat.digitChar m :=
    fun c hc => mem_padZeros (mem_trimZeros hc)
  by_cases h : T = []
  · rw [if_pos h]
    have hqle : q ≤ 10 ^ 5 := le_trans (Nat.div_le_self mag _) hmag
    exact sig_sgn_natChars neg hqle
  · rw [if_neg h, sigCount, filter_pred_out neg q T hTd]
    have hr0 : r ≠ 0 := by
      intro h0
      apply h
      rw [hT, hP, h0]
      apply (trimRight_eq_nil_iff _ _).mpr
      intro c hc
      rw [padZeros] at hc
      rcases List.mem_append.mp hc with hc | hc
      · simp [List.eq_of_mem_replicate hc]
      · obtain rfl : c = '0' := by
          have h00 : natChars 0 = ['0'] := rfl
          rw [h00] at hc
          simpa using hc
        rfl
  -- split on whether the integer part is zero
    by_cases hq0 : q = 0
    · have hq00 : natChars q = ['0'] := by rw [hq0]; rfl
      have hrmag : r = mag := by
        have hme := hmag_eq
        rw [hq0] at hme
        simpa using hme
      set W := trimZeros (natChars r) with hW
      have hWne : W ≠ [] := by
        intro h0
        have hall := (trimRight_eq_nil_iff _ _).mp h0
        cases hnc : natChars r with
        | nil => exact natChars_ne_nil r hnc
        | cons a t =>
          have ha : a ≠ '0' := natChars_head_ne_zero hr0 a (by rw [hnc]; rfl)
          have := hall a (by rw [hnc]; exact List.mem_cons_self a t)
          exact ha (by simpa using this)
      have hTW : T = List.replicate (d - (natChars r).length) '0' ++ W := by
        rw [hT, hP, padZeros, trimZeros_append, if_neg hWne]
      have hWhead : W.dropWhile (· == '0') = W := by
        cases hnc : natChars r with
        | nil => exact absurd hnc (natChars_ne_nil r)
        | cons a t =>
          have ha : a ≠ '0' := natChars_head_ne_zero hr0 a (by rw [hnc]; rfl)
          apply dropWhile_eq_self_of_head
          intro c hcH
          have hW2 : W = trimZeros (a :: t) := by rw [hW, hnc]
          have hhd : (trimZeros (a :: t)).head? = some a :=
            trimRight_head? (by
              show trimZeros (a :: t) ≠ []
              rw [← hW2]
              exact hWne)
          rw [hW2, hhd] at hcH
          obtain rfl : a = c := by simpa using hcH
          simpa using ha
      have hdrop : (natChars q ++ T).dropWhile (· == '0') = W := by
        rw [hq00, hTW]
        show ('0' :: (List.replicate (d - (natChars r).length) '0' ++ W)).dropWhile
          (· == '0') = W
        rw [List.dropWhile_cons, if_pos (by decide), dropWhile_append_char]
        have hrep : (List.replicate (d - (natChars r).length) '0').dropWhile
            (· == '0') = [] := by
          apply List.dropWhile_eq_nil_iff.mpr
          intro c hc
          simp [List.eq_of_mem_replicate hc]
        rw [hrep]
        simp [hWhead]
      rw [hdrop]
      have hWW : trimZeros W = W := by rw [hW]; exact trimZeros_trimZeros _
      rw [hWW]
      have := @sig_core r (by omega)
      rwa [natChars_dropWhile_self hr0] at this
    · have hAhead : (natChars q ++ T).dropWhile (· == '0') = natChars q ++ T := by
        apply dropWhile_eq_self_of_head
        intro c hcH
        cases hnc : natChars q with
        | nil => exact absurd hnc (natChars_ne_nil q)
        | cons a t =>
          rw [hnc] at hcH
          have hac : a = c := by simpa using hcH
          have ha := natChars_head_ne_zero hq0 a (by rw [hnc]; rfl)
          rw [← hac]
          simpa using ha
      rw [hAhead]
      have hTT : trimZeros T = T := by rw [hT]; exact trimZeros_trimZeros P
      have heq : trimZeros (natChars q ++ T) = natChars q ++ T := by
        rw [trimZeros_append, hTT, if_neg h]
      rw [heq, List.length_append]
      have hrpos : 1 ≤ r := Nat.one_le_iff_ne_zero.mpr hr0
      have h5lit : (10 : ℕ) ^ 5 = 100000 := by norm_num
      have hqd : 10 ^ d * q < 10 ^ 5 := by
        rw [h5lit]
        omega
      have hd5 : d < 5 := by
        by_contra hcon
        push_neg at hcon
        have h10 : (10 : ℕ) ^ 5 ≤ 10 ^ d := Nat.pow_le_pow_right (by omega) hcon
        have hq1 : 1 ≤ q := Nat.one_le_iff_ne_zero.mpr hq0
        nlinarith
      have hqlt : q < 10 ^ (5 - d) := by
        have hsplit : (10 : ℕ) ^ 5 = 10 ^ d * 10 ^ (5 - d) := by
          rw [← pow_add]
          congr 1
          omega
        rw [hsplit] at hqd
        have hpow : 0 < (10 : ℕ) ^ d := by positivity
        exact lt_of_mul_lt_mul_left hqd (Nat.zero_le _)
      have hAlen : (natChars q).length ≤ 5 - d := natChars_length_le hqlt hq0
      have hTlen : T.length ≤ d := by
        calc T.length ≤ P.length := trimZeros_len_le P
        _ = d := padZeros_length hrlt hd
      omega

/-- Sign-aware integer rendering: at most 5 significant digits when the
magnitude is at most 10^5. -/
lemma sig_intChars {t : ℤ} (h : t.natAbs ≤ 10 ^ 5) : sigCount (intChars t) ≤ 5 := by
  rw [intChars]
  by_cases ht : t < 0
  · rw [if_pos ht]
    have := @sig_sgn_natChars true t.natAbs h
    simpa using this
  · rw [if_neg ht]
    have htn : t.toNat = t.natAbs := by omega
    rw [htn]
    have := @sig_sgn_natChars false t.natAbs h
    simpa using this

/- ------------------------------------------------------------------ -/
/- Budget lemmas for PriceToWire                                       -/
/- ------------------------------------------------------------------ -/

lemma allowedDecimals_nonneg (x : ℚ) (m s : ℤ) : 0 ≤ allowedDecimals x m s :=
  le_max_left 0 _

lemma allowedDecimals_le_tick (x : ℚ) (m s : ℤ) :
    (allowedDecimals x m s).toNat ≤ (m - s).toNat := by
  have h1 : allowedDecimals x m s ≤ max 0 (m - s) := by
    rw [allowedDecimals]
    exact max_le_max (le_refl 0) (min_le_left _ _)
  calc (allowedDecimals x m s).toNat ≤ (max 0 (m - s)).toNat := Int.toNat_le_toNat h1
  _ = (m - s).toNat := by
    rcases le_or_lt 0 (m - s) with h | h
    · rw [max_eq_right h]
    · rw [max_eq_left h.le]
      omega

/-- For a negative price the significant-figure branch goes through
int(Ceil(-Log10 x)) = int(NaN) = minInt64 on amd64, so the decimal budget
collapses to 0. -/
lemma allowedDecimals_of_neg {x : ℚ} (h : x < 0) (m s : ℤ) :
    allowedDecimals x m s = 0 := by
  have h1 : ¬ 1 ≤ x := by linarith
  have h2 : ¬ 0 < x.num := by
    simp only [not_lt]
    exact (Rat.num_nonpos).mpr h.le
  rw [allowedDecimals, if_neg h1, ceilNegLog10, if_neg h2]
  have : min (m - s) (4 + -2 ^ 63) ≤ 4 + -2 ^ 63 := min_le_right _ _
  have hneg : min (m - s) (4 + -2 ^ 63) ≤ 0 := by
    calc min (m - s) (4 + -2 ^ 63) ≤ 4 + -2 ^ 63 := min_le_right _ _
    _ ≤ 0 := by norm_num
  exact max_eq_left hneg

lemma roundHalfAway_natAbs_le {y : ℚ} {B : ℕ} (h : |y| < (B : ℚ)) :
    (roundHalfAway y).natAbs ≤ B := by
  have key : ∀ z : ℚ, 0 ≤ z → |z| < (B : ℚ) → (roundHalfAway z).natAbs ≤ B := by
    intro z hz hzB
    have habs : |z| = z := abs_of_nonneg hz
    have h1 : 0 ≤ roundHalfAway z := roundHalfAway_nonneg hz
    have h2 : (roundHalfAway z : ℚ) ≤ z + 1 / 2 := roundHalfAway_le hz
    have h3 : (roundHalfAway z : ℚ) < (B : ℚ) + 1 := by
      rw [habs] at hzB
      linarith
    have h4 : roundHalfAway z < (B : ℤ) + 1 := by exact_mod_cast h3
    omega
  rcases le_or_lt 0 y with hy | hy
  · exact key y hy h
  · have hres := key (-y) (by linarith) (by rwa [abs_neg])
    rw [roundHalfAway_neg] at hres
    simpa using hres

/-- Magnitude of the rounded price: for |x| < 10^5, the scaled rounding at the
PriceToWire budget never exceeds 10^5, across all three branches of the
significant-figure rule. -/
lemma priceScaled_natAbs_le (x : ℚ) (m s : ℤ) (hx : |x| < 10 ^ 5) :
    (roundScaled x (allowedDecimals x m s).toNat).natAbs ≤ 10 ^ 5 := by
  set d := (allowedDecimals x m s).toNat with hd
  rw [roundScaled_eq]
  apply roundHalfAway_natAbs_le
  have hcast : ((10 ^ 5 : ℕ) : ℚ) = 10 ^ 5 := by push_cast; ring
  rw [hcast]
  rcases lt_trichotomy x 0 with hneg | hzero | hpos
  · have hd0 : d = 0 := by rw [hd, allowedDecimals_of_neg hneg]; rfl
    rw [hd0]
    simpa using hx
  · subst hzero
    simpa using (by norm_num : (0 : ℚ) < 10 ^ 5)
  · rcases le_or_lt 1 x with hge1 | hlt1
    · -- 1 ≤ x: the digit-count branch
      have hfl : x.num / (x.den : ℤ) = ⌊x⌋ := intDiv_den_eq_floor x
      set K := (x.num / (x.den : ℤ)).toNat with hK
      have hKfloor : (K : ℤ) = ⌊x⌋ := by
        rw [hK, hfl]
        have h0 : 0 ≤ ⌊x⌋ := Int.floor_nonneg.mpr hpos.le
        omega
      have hK1 : 1 ≤ K := by
        have h1 : (1 : ℤ) ≤ ⌊x⌋ := Int.le_floor.mpr (by exact_mod_cast hge1)
        omega
      set D := natLog10 K + 1 with hD
      have hDlog : D = Nat.log 10 K + 1 := by rw [hD, natLog10_eq]
      have hdig : intDigits10 x = (D : ℤ) := by
        rw [intDigits10, ← hK, hD]
        push_cast
        ring
      have hxD : x < (10 : ℚ) ^ D := by
        have h1 : K < 10 ^ D := by
          rw [hDlog]
          exact Nat.lt_pow_succ_log_self (by omega) K
        have h2 : x < (⌊x⌋ : ℚ) + 1 := Int.lt_floor_add_one x
        have h3 : ((⌊x⌋ : ℚ) + 1) ≤ (10 : ℚ) ^ D := by
          rw [← hKfloor]
          have h4 : (K : ℤ) + 1 ≤ 10 ^ D := by exact_mod_cast h1
          have h5 : ((K : ℤ) : ℚ) + 1 ≤ ((10 ^ D : ℤ) : ℚ) := by exact_mod_cast h4
          push_cast at h5 ⊢
          linarith
        linarith
      have hD5 : D ≤ 5 := by
        have hx5 : x < (10 : ℚ) ^ 5 := by
          have : |x| = x := abs_of_pos hpos
          linarith [hx, this.symm.le]
        have hKlt : K < 10 ^ 5 := by
          have h1 : ((K : ℤ) : ℚ) ≤ x := by
            rw [hKfloor]
            exact Int.floor_le x
          have h2 : ((K : ℤ) : ℚ) < ((10 ^ 5 : ℤ) : ℚ) := by
            push_cast at h1 ⊢
            linarith
          have h3 : (K : ℤ) < 10 ^ 5 := by exact_mod_cast h2
          omega
        rw [hDlog]
        have := Nat.log_lt_of_lt_pow (by omega : K ≠ 0) hKlt
        omega
      have hdle : d ≤ 5 - D := by
        have hsig : allowedDecimals x m s ≤ max 0 (5 - (D : ℤ)) := by
          rw [allowedDecimals, if_pos hge1, hdig]
          exact max_le (le_max_left _ _) (min_le_right _ _)
        have h1 : d ≤ (max 0 (5 - (D : ℤ))).toNat := by
          rw [hd]
          exact Int.toNat_le_toNat hsig
        omega
      have habs : |x * 10 ^ d| = x * 10 ^ d := abs_of_pos (by positivity)
      rw [habs]
      calc x * 10 ^ d < 10 ^ D * 10 ^ d :=
        mul_lt_mul_of_pos_right hxD (by positivity)
      _ = 10 ^ (D + d) := (pow_add 10 D d).symm
      _ ≤ 10 ^ 5 := by
        apply pow_le_pow_right₀ (by norm_num)
        omega
    · -- 0 < x < 1: the reciprocal-clog branch
      have hnum : 0 < x.num := Rat.num_pos.mpr hpos
      have hinv : x⁻¹ = (x.den : ℚ) / (x.num : ℚ) := by
        conv_lhs => rw [← Rat.num_div_den x]
        rw [inv_div]
      have hinv1 : 1 < x⁻¹ := one_lt_inv_iff₀.mpr ⟨hpos, hlt1⟩
      have hnum' : ((x.num.toNat : ℕ) : ℤ) = x.num := by omega
      have hceil : -((-(x.den : ℤ)) / x.num) = ⌈x⁻¹⌉ := by
        have hfl2 : ⌊((-(x.den : ℤ) : ℤ) : ℚ) / ((x.num.toNat : ℕ) : ℚ)⌋ =
            (-(x.den : ℤ)) / ((x.num.toNat : ℕ) : ℤ) := Rat.floor_intCast_div_natCast _ _
        have hnegq : -x⁻¹ = ((-(x.den : ℤ) : ℤ) : ℚ) / ((x.num.toNat : ℕ) : ℚ) := by
          rw [hinv]
          have hq : ((x.num.toNat : ℕ) : ℚ) = (x.num : ℚ) := by exact_mod_cast hnum'
          rw [hq]
          push_cast
          ring
        have hcf : ⌈x⁻¹⌉ = -⌊-x⁻¹⌋ := by
          rw [Int.floor_neg, neg_neg]
        rw [hcf, hnegq, hfl2, hnum']
      set c := (-((-(x.den : ℤ)) / x.num)).toNat with hc
      have hceil2 : (c : ℤ) = ⌈x⁻¹⌉ := by
        rw [hc, hceil]
        have h0 : 0 < ⌈x⁻¹⌉ := Int.ceil_pos.mpr (by positivity)
        omega
      have hc2 : 2 ≤ c := by
        have h1 : 1 < ⌈x⁻¹⌉ := Int.lt_ceil.mpr (by exact_mod_cast hinv1)
        omega
      set e := natClog10 c with he
      have heclog : e = Nat.clog 10 c := by rw [he, natClog10_eq]
      have hcnl : ceilNegLog10 x = (e : ℤ) := by
        rw [ceilNegLog10, if_pos hnum, ← hc, he]
      have he1 : 1 ≤ e := by
        rw [heclog]
        exact Nat.clog_pos (by omega) hc2
      have hlow : x * 10 ^ (e - 1) < 1 := by
        have h1 : 10 ^ (e - 1) < c := by
          have h2 := Nat.pow_pred_clog_lt_self (by omega : (1 : ℕ) < 10)
            (by omega : 1 < c)
          rw [← heclog] at h2
          simpa [Nat.pred_eq_sub_one] using h2
        have h2 : ((10 ^ (e - 1) : ℕ) : ℤ) < ⌈x⁻¹⌉ := by
          rw [← hceil2]
          exact_mod_cast h1
        have h3 : (((10 ^ (e - 1) : ℕ) : ℤ) : ℚ) < x⁻¹ := Int.lt_ceil.mp h2
        have h4 : x * (((10 ^ (e - 1) : ℕ) : ℤ) : ℚ) < x * x⁻¹ :=
          mul_lt_mul_of_pos_left h3 hpos
        rw [mul_inv_cancel₀ hpos.ne'] at h4
        have h5 : x * (10 : ℚ) ^ (e - 1) = x * (((10 ^ (e - 1) : ℕ) : ℤ) : ℚ) := by
          norm_cast
        rw [h5]
        exact h4
      have hdle : d ≤ 4 + e := by
        have h1 : ¬ 1 ≤ x := by linarith
        have hsig : allowedDecimals x m s ≤ 4 + (e : ℤ) := by
          rw [allowedDecimals, if_neg h1, hcnl]
          calc max 0 (min (m - s) (4 + (e : ℤ))) ≤ max 0 (4 + (e : ℤ)) :=
            max_le_max (le_refl 0) (min_le_right _ _)
          _ = 4 + (e : ℤ) := max_eq_right (by positivity)
        have h2 := Int.toNat_le_toNat hsig
        rw [← hd] at h2
        omega
      have habs : |x * 10 ^ d| = x * 10 ^ d := abs_of_pos (by positivity)
      rw [habs]
      rcases le_or_lt (e - 1) d with hde | hde
      · have hsplit : (10 : ℚ) ^ d = 10 ^ (e - 1) * 10 ^ (d - (e - 1)) := by
          rw [← pow_add]
          congr 1
          omega
        have h1 : x * 10 ^ d = (x * 10 ^ (e - 1)) * 10 ^ (d - (e - 1)) := by
          rw [hsplit]
          ring
        have h2 : (x * 10 ^ (e - 1)) * 10 ^ (d - (e - 1)) <
            1 * 10 ^ (d - (e - 1)) :=
          mul_lt_mul_of_pos_right hlow (by positivity)
        have h3 : (1 : ℚ) * 10 ^ (d - (e - 1)) ≤ 10 ^ 5 := by
          rw [one_mul]
          apply pow_le_pow_right₀ (by norm_num)
          omega
        rw [h1]
        linarith
      · have h1 : (10 : ℚ) ^ d ≤ 10 ^ (e - 1) :=
          pow_le_pow_right₀ (by norm_num) (by omega)
        have h2 : x * 10 ^ d ≤ x * 10 ^ (e - 1) :=
          mul_le_mul_of_nonneg_left h1 hpos.le
        have h3 : x * 10 ^ d < 1 := lt_of_le_of_lt h2 hlow
        calc x * 10 ^ d < 1 := h3
        _ ≤ 10 ^ 5 := by norm_num

/- ------------------------------------------------------------------ -/
/- Small output-shape helpers                                          -/
/- ------------------------------------------------------------------ -/

lemma formatFixed_zero (neg : Bool) (mag : ℕ) :
    formatFixed neg mag 0 = (if neg then ['-'] else []) ++ natChars mag := by
  cases neg <;> rfl

lemma dot_not_mem_formatFixed_zero (neg : Bool) (mag : ℕ) :
    '.' ∉ formatFixed neg mag 0 := by
  rw [formatFixed_zero]
  exact fun h => dot_not_mem_sgn_natChars neg mag h

lemma dot_mem_formatFixed {neg : Bool} {mag d : ℕ} (hd : 1 ≤ d) :
    '.' ∈ formatFixed neg mag d := by
  rw [formatFixed]
  have h0 : ¬ d = 0 := by omega
  cases neg <;> simp [h0]

lemma dot_not_mem_intChars (t : ℤ) : '.' ∉ intChars t := by
  rw [intChars]
  by_cases ht : t < 0
  · rw [if_pos ht]
    intro h
    rcases List.mem_cons.mp h with h | h
    · exact absurd h.symm (by decide)
    · exact mem_natChars_ne_dot h rfl
  · rw [if_neg ht]
    intro h
    exact mem_natChars_ne_dot h rfl

lemma getLast_intChars_ne_dot (t : ℤ) :
    ∀ c, (intChars t).getLast? = some c → c ≠ '.' := by
  intro c hc
  rw [intChars] at hc
  by_cases ht : t < 0
  · rw [if_pos ht, show ('-' :: natChars t.natAbs) = ['-'] ++ natChars t.natAbs from rfl,
      getLast?_append_ne_nil (natChars_ne_nil _)] at hc
    exact mem_natChars_ne_dot (getLast?_mem_char hc)
  · rw [if_neg ht] at hc
    exact mem_natChars_ne_dot (getLast?_mem_char hc)

lemma goTrunc_natAbs_le {x : ℚ} {B : ℕ} (h : |x| < (B : ℚ)) :
    (goTrunc x).natAbs ≤ B := by
  rcases le_or_lt 0 x with hx | hx
  · rw [goTrunc_of_nonneg hx]
    have h1 : 0 ≤ ⌊x⌋ := Int.floor_nonneg.mpr hx
    have h2 : (⌊x⌋ : ℚ) ≤ x := Int.floor_le x
    have h3 : (⌊x⌋ : ℚ) < (B : ℚ) := lt_of_le_of_lt h2 (by rwa [abs_of_nonneg hx] at h)
    have h4 : ⌊x⌋ < (B : ℤ) := by exact_mod_cast h3
    omega
  · rw [goTrunc_of_neg hx]
    have h1 : ⌈x⌉ ≤ 0 := Int.ceil_le.mpr (by exact_mod_cast hx.le)
    have h2 : x ≤ (⌈x⌉ : ℚ) := Int.le_ceil x
    have h3 : -(B : ℚ) < x := (abs_lt.mp h).1
    have h4 : -(B : ℤ) < ⌈x⌉ := by
      have h5 : ((-(B : ℤ) : ℤ) : ℚ) < (⌈x⌉ : ℚ) := by
        push_cast
        linarith
      exact_mod_cast h5
    omega

/- ------------------------------------------------------------------ -/
/- Claim C7: negative values and zero                                  -/
/- ------------------------------------------------------------------ -/

/-- Claim C7 (counterexample): a negative non-integer price is NOT the
minus sign followed by the encoding of its magnitude: the magnitude 1234.5
encodes as "1234.5", but PriceToWire(-1234.5, 6, 0) collapses the decimal
budget to zero and yields "-1235". -/
theorem priceToWire_negative_counterexample :
    PriceToWire (mkRat (-2469) 2) 6 0 = "-1235" ∧
    "-" ++ PriceToWire (mkRat 2469 2) 6 0 = "-1234.5" ∧
    PriceToWire (mkRat (-2469) 2) 6 0 ≠ "-" ++ PriceToWire (mkRat 2469 2) 6 0 :=
  ⟨by decide, by decide, by decide⟩

lemma sizeToWire_int {x : ℚ} {d : ℤ} (h : d = 0 ∨ isIntQ x = true) :
    SizeToWire x d = ⟨intChars (goTrunc x)⟩ := by
  rcases h with h | h
  · simp only [SizeToWire, if_pos h]
  · by_cases hd : d = 0
    · simp only [SizeToWire, if_pos hd]
    · simp only [SizeToWire, if_neg hd, if_pos h]

lemma sizeToWire_eval {x : ℚ} {d : ℤ} (hd : ¬ d = 0) (hint : ¬ isIntQ x = true) :
    SizeToWire x d = ⟨trimDot (trimZeros (formatFixed (decide (x < 0))
      (roundScaled x d.toNat).natAbs d.toNat))⟩ := by
  simp only [SizeToWire, if_neg hd, if_neg hint]

lemma priceToWire_int {x : ℚ} (h : isIntQ x = true) (m s : ℤ) :
    PriceToWire x m s = ⟨intChars (goTrunc x)⟩ := by
  simp only [PriceToWire, if_pos h]

lemma priceToWire_eval {x : ℚ} (hint : ¬ isIntQ x = true) (m s : ℤ) :
    PriceToWire x m s =
      if '.' ∈ formatFixed (decide (x < 0))
          (roundScaled x (allowedDecimals x m s).toNat).natAbs
          (allowedDecimals x m s).toNat
      then ⟨trimDot (trimZeros (formatFixed (decide (x < 0))
        (roundScaled x (allowedDecimals x m s).toNat).natAbs
        (allowedDecimals x m s).toNat))⟩
      else ⟨formatFixed (decide (x < 0))
        (roundScaled x (allowedDecimals x m s).toNat).natAbs
        (allowedDecimals x m s).toNat⟩ := by
  simp only [PriceToWire, if_neg hint]

/-- Claim C7 (amended): both canonicalizers return exactly "0" at x = 0;
SizeToWire formats a negative value with szDecimals ≥ 1 as a leading minus
followed by the encoding of its magnitude; PriceToWire formats a negative
non-integer with a leading minus, but — the significant-figure branch passing
through int(Ceil(-Log10 x)) = int(NaN) — its decimal budget collapses to 0,
so the magnitude is rounded to an integer instead of receiving its own
encoding (SizeToWire with szDecimals = 0 likewise truncates, per C10). -/
theorem negative_and_zero_formatting (x : ℚ) (m s d : ℤ) :
    PriceToWire 0 m s = "0" ∧
    SizeToWire 0 d = "0" ∧
    (x < 0 → 1 ≤ d → SizeToWire x d = "-" ++ SizeToWire (-x) d) ∧
    (x < 0 → ¬ isIntQ x = true →
      PriceToWire x m s = ⟨'-' :: natChars (roundScaled x 0).natAbs⟩) := by
  refine ⟨rfl, ?_, ?_, ?_⟩
  · rw [@sizeToWire_int 0 d (Or.inr rfl)]
    rfl
  · intro hx hd1
    have hd0 : ¬ d = 0 := by omega
    have hdenneg : (-x).den = x.den := Rat.neg_den x
    by_cases hint : isIntQ x = true
    · have hint2 : isIntQ (-x) = true := by
        rw [isIntQ] at hint ⊢
        rwa [hdenneg]
      have hden1 : x.den = 1 := (isIntQ_iff x).mp hint
      have hxint : x = ((x.num : ℤ) : ℚ) := by
        conv_lhs => rw [← Rat.num_div_den x]
        rw [hden1]
        simp
      have hnegpos : (0 : ℚ) < -x := by linarith
      have ht : goTrunc (-x) = ⌊-x⌋ := goTrunc_of_nonneg hnegpos.le
      have htx : goTrunc x = -goTrunc (-x) := by
        rw [goTrunc_of_neg hx, ht, Int.floor_neg, neg_neg]
      have hnum_le : x.num ≤ -1 := by
        have h1 : x.num < 0 := Rat.num_neg.mpr hx
        omega
      have ht1 : 1 ≤ goTrunc (-x) := by
        rw [ht]
        apply Int.le_floor.mpr
        have h1 : ((x.num : ℤ) : ℚ) ≤ ((-1 : ℤ) : ℚ) := by exact_mod_cast hnum_le
        rw [← hxint] at h1
        push_cast at h1 ⊢
        linarith
      rw [sizeToWire_int (Or.inr hint), sizeToWire_int (Or.inr hint2)]
      apply String.ext
      rw [String.data_append]
      show intChars (goTrunc x) = "-".data ++ intChars (goTrunc (-x))
      rw [htx, intChars, if_pos (by omega : -goTrunc (-x) < 0), intChars,
        if_neg (by omega : ¬ goTrunc (-x) < 0)]
      have habs : (-goTrunc (-x)).natAbs = (goTrunc (-x)).toNat := by omega
      rw [habs]
      rfl
    · have hint2 : ¬ isIntQ (-x) = true := by
        rw [isIntQ] at hint ⊢
        rwa [hdenneg]
      have hdN1 : 1 ≤ d.toNat := by omega
      have hrs : roundScaled (-x) d.toNat = -(roundScaled x d.toNat) := by
        rw [roundScaled_eq, roundScaled_eq,
          show -x * 10 ^ d.toNat = -(x * 10 ^ d.toNat) by ring, roundHalfAway_neg]
      have hmageq : (roundScaled (-x) d.toNat).natAbs = (roundScaled x d.toNat).natAbs := by
        rw [hrs, Int.natAbs_neg]
      have hdec1 : decide (x < 0) = true := decide_eq_true hx
      have hdec2 : decide (-x < 0) = false := decide_eq_false (by linarith)
      rw [sizeToWire_eval hd0 hint, sizeToWire_eval hd0 hint2]
      apply String.ext
      rw [String.data_append]
      show trimDot (trimZeros (formatFixed (decide (x < 0))
          (roundScaled x d.toNat).natAbs d.toNat)) =
        "-".data ++ trimDot (trimZeros (formatFixed (decide (-x < 0))
          (roundScaled (-x) d.toNat).natAbs d.toNat))
      rw [hdec1, hdec2, hmageq, trim_shape true _ d.toNat hdN1,
        trim_shape false _ d.toNat hdN1]
      rfl
  · intro hx hint
    have hd0 : allowedDecimals x m s = 0 := allowedDecimals_of_neg hx m s
    have hdec1 : decide (x < 0) = true := decide_eq_true hx
    rw [priceToWire_eval hint, hd0]
    rw [show ((0 : ℤ)).toNat = 0 from rfl, hdec1]
    rw [if_neg (dot_not_mem_formatFixed_zero true _)]
    rfl

/-- Closed instance of `negative_and_zero_formatting` at x = -3.1,
maxDecimals 6, szDecimals 0, sizeDecimals d = 1. -/
theorem negative_and_zero_formatting_witness :
    PriceToWire 0 6 0 = "0" ∧
    SizeToWire 0 1 = "0" ∧
    SizeToWire (mkRat (-31) 10) 1 = "-" ++ SizeToWire (-(mkRat (-31) 10)) 1 ∧
    PriceToWire (mkRat (-31) 10) 6 0 =
      ⟨'-' :: natChars (roundScaled (mkRat (-31) 10) 0).natAbs⟩ :=
  have h := negative_and_zero_formatting (mkRat (-31) 10) 6 0 1
  ⟨h.1, h.2.1, h.2.2.1 (by decide) (by decide), h.2.2.2 (by decide) (by decide)⟩

/- ------------------------------------------------------------------ -/
/- Claim C5: SizeToWire decimal budget and trimming                    -/
/- ------------------------------------------------------------------ -/

/-- Claim C5: for non-negative x and szDecimals d ≥ 0, SizeToWire(x, d) has
at most d digits after the decimal point, never ends in a fractional
trailing zero, never ends in a dangling decimal point, and when d = 0 or x
is an exact integer it is the plain integer string (Go FormatInt of the
int64 conversion), containing no decimal point. -/
theorem sizeToWire_decimals (x : ℚ) (d : ℤ) (hx : 0 ≤ x) (hd : 0 ≤ d) :
    fracCount (SizeToWire x d).data ≤ d.toNat ∧
    ('.' ∈ (SizeToWire x d).data →
      ∀ c, (SizeToWire x d).data.getLast? = some c → c ≠ '0') ∧
    (∀ c, (SizeToWire x d).data.getLast? = some c → c ≠ '.') ∧
    ((d = 0 ∨ isIntQ x = true) →
      SizeToWire x d = ⟨intChars (goTrunc x)⟩ ∧ '.' ∉ (SizeToWire x d).data) := by
  by_cases hcase : d = 0 ∨ isIntQ x = true
  · have heq := sizeToWire_int hcase
    rw [heq]
    refine ⟨?_, ?_, ?_, fun _ => ⟨rfl, ?_⟩⟩
    · show fracCount (intChars (goTrunc x)) ≤ d.toNat
      rw [fracCount, if_neg (dot_not_mem_intChars _)]
      exact Nat.zero_le _
    · intro hdot
      exact absurd hdot (dot_not_mem_intChars _)
    · exact getLast_intChars_ne_dot _
    · exact dot_not_mem_intChars _
  · push_neg at hcase
    obtain ⟨hd0, hint⟩ := hcase
    have heq := sizeToWire_eval hd0 hint
    have hdec : decide (x < 0) = false := decide_eq_false (not_lt.mpr hx)
    rw [hdec] at heq
    rw [heq]
    have hdN1 : 1 ≤ d.toNat := by omega
    refine ⟨?_, ?_, ?_, ?_⟩
    · exact formatTrim_frac_le false _ _ hdN1
    · intro hdot
      exact formatTrim_last_not_zero false _ _ hdN1 hdot
    · exact formatTrim_last_not_dot false _ _ hdN1
    · intro hcon
      rcases hcon with h | h
      · exact absurd h hd0
      · exact absurd h hint

/-- Closed instance of `sizeToWire_decimals` at x = 3.1, szDecimals 1. -/
theorem sizeToWire_decimals_witness :
    fracCount (SizeToWire (mkRat 31 10) 1).data ≤ (1 : ℤ).toNat ∧
    ('.' ∈ (SizeToWire (mkRat 31 10) 1).data →
      ∀ c, (SizeToWire (mkRat 31 10) 1).data.getLast? = some c → c ≠ '0') ∧
    (∀ c, (SizeToWire (mkRat 31 10) 1).data.getLast? = some c → c ≠ '.') ∧
    (((1 : ℤ) = 0 ∨ isIntQ (mkRat 31 10) = true) →
      SizeToWire (mkRat 31 10) 1 = ⟨intChars (goTrunc (mkRat 31 10))⟩ ∧
      '.' ∉ (SizeToWire (mkRat 31 10) 1).data) :=
  sizeToWire_decimals (mkRat 31 10) 1 (by decide) (by decide)

/- ------------------------------------------------------------------ -/
/- Claim C3: PriceToWire digit budgets                                 -/
/- ------------------------------------------------------------------ -/

/-- Claim C3 (counterexample): PriceToWire(123456.5, 6, 0) returns "123457",
whose parsed value carries 6 significant digits — the 5-significant-digit
bound fails for a non-integer price with a 6-digit integer part (123456.5 is
not an exact integer, so the integer carve-out does not apply). -/
theorem priceToWire_sig_counterexample :
    PriceToWire (mkRat 246913 2) 6 0 = "123457" ∧
    ¬ isIntQ (mkRat 246913 2) = true ∧
    sigCount (PriceToWire (mkRat 246913 2) 6 0).data = 6 :=
  ⟨by decide, by decide, by decide⟩

/-- Claim C3 (amended): PriceToWire output, parsed back, has at most
maxDecimals − szDecimals fractional digits for every input, and at most 5
significant digits whenever |x| < 10^5 (equivalently, the integer part has
at most 5 digits; a non-integer x of larger magnitude is rounded to an
integer string carrying all its integer digits); in particular
PriceToWire(1234.1, 6, 0) = "1234.1". -/
theorem priceToWire_digits (x : ℚ) (m s : ℤ) :
    fracCount (PriceToWire x m s).data ≤ (m - s).toNat ∧
    (|x| < 10 ^ 5 → sigCount (PriceToWire x m s).data ≤ 5) ∧
    PriceToWire (mkRat 12341 10) 6 0 = "1234.1" := by
  refine ⟨?_, ?_, by decide⟩
  · by_cases hint : isIntQ x = true
    · rw [priceToWire_int hint]
      show fracCount (intChars (goTrunc x)) ≤ (m - s).toNat
      rw [fracCount, if_neg (dot_not_mem_intChars _)]
      exact Nat.zero_le _
    · rw [priceToWire_eval hint]
      by_cases hd1 : 1 ≤ (allowedDecimals x m s).toNat
      · rw [if_pos (dot_mem_formatFixed hd1)]
        calc fracCount (trimDot (trimZeros (formatFixed (decide (x < 0))
            (roundScaled x (allowedDecimals x m s).toNat).natAbs
            (allowedDecimals x m s).toNat)))
            ≤ (allowedDecimals x m s).toNat := formatTrim_frac_le _ _ _ hd1
        _ ≤ (m - s).toNat := allowedDecimals_le_tick x m s
      · have hdN0 : (allowedDecimals x m s).toNat = 0 := by omega
        rw [hdN0, if_neg (dot_not_mem_formatFixed_zero _ _)]
        show fracCount (formatFixed (decide (x < 0))
          (roundScaled x 0).natAbs 0) ≤ (m - s).toNat
        rw [fracCount, if_neg (dot_not_mem_formatFixed_zero _ _)]
        exact Nat.zero_le _
  · intro hx5
    by_cases hint : isIntQ x = true
    · rw [priceToWire_int hint]
      show sigCount (intChars (goTrunc x)) ≤ 5
      apply sig_intChars
      apply goTrunc_natAbs_le
      have hcast : ((10 ^ 5 : ℕ) : ℚ) = 10 ^ 5 := by push_cast; ring
      rw [hcast]
      exact hx5
    · have hmag : (roundScaled x (allowedDecimals x m s).toNat).natAbs ≤ 10 ^ 5 :=
        priceScaled_natAbs_le x m s hx5
      rw [priceToWire_eval hint]
      by_cases hd1 : 1 ≤ (allowedDecimals x m s).toNat
      · rw [if_pos (dot_mem_formatFixed hd1)]
        exact sig_out_le _ _ _ hd1 hmag
      · have hdN0 : (allowedDecimals x m s).toNat = 0 := by omega
        rw [hdN0] at hmag
        rw [hdN0, if_neg (dot_not_mem_formatFixed_zero _ _)]
        show sigCount (formatFixed (decide (x < 0)) (roundScaled x 0).natAbs 0) ≤ 5
        rw [formatFixed_zero]
        exact sig_sgn_natChars _ hmag

/-- Closed instance of `priceToWire_digits` at x = 1234.1, maxDecimals 6,
szDecimals 0. -/
theorem priceToWire_digits_witness :
    fracCount (PriceToWire (mkRat 12341 10) 6 0).data ≤ ((6 : ℤ) - 0).toNat ∧
    sigCount (PriceToWire (mkRat 12341 10) 6 0).data ≤ 5 ∧
    PriceToWire (mkRat 12341 10) 6 0 = "1234.1" :=
  have h := priceToWire_digits (mkRat 12341 10) 6 0
  ⟨h.1, h.2.1 (by decide), h.2.2⟩

/-- Closed instance of `toWire_spot_perp` on a spot symbol with base asset
id 7 and on nothing else (the theorem itself covers every request). -/
theorem toWire_spot_perp_witness :
    ((OrderRequest.isSpot ⟨none, "A-B", true, 1, 1, ⟨some ⟨"Gtc"⟩, none⟩, false, ""⟩) = true ↔
      ('@' ∈ ("A-B" : String).data ∨ '-' ∈ ("A-B" : String).data)) ∧
    ((OrderRequest.ToWire ⟨none, "A-B", true, 1, 1, ⟨some ⟨"Gtc"⟩, none⟩, false, ""⟩
        ⟨2, 0, 7, ""⟩).Asset =
      (if OrderRequest.isSpot ⟨none, "A-B", true, 1, 1, ⟨some ⟨"Gtc"⟩, none⟩, false, ""⟩
        then (7 : ℤ) + 10000 else 7)) ∧
    ((OrderRequest.ToWire ⟨none, "A-B", true, 1, 1, ⟨some ⟨"Gtc"⟩, none⟩, false, ""⟩
        ⟨2, 0, 7, ""⟩).LimitPx =
      PriceToWire 1
        (if OrderRequest.isSpot ⟨none, "A-B", true, 1, 1, ⟨some ⟨"Gtc"⟩, none⟩, false, ""⟩
          then 8 else 6) 2) ∧
    ((OrderRequest.ToWire ⟨none, "A-B", true, 1, 1, ⟨some ⟨"Gtc"⟩, none⟩, false, ""⟩
        ⟨2, 0, 7, ""⟩).SizePx = SizeToWire 1 2) :=
  toWire_spot_perp ⟨none, "A-B", true, 1, 1, ⟨some ⟨"Gtc"⟩, none⟩, false, ""⟩ ⟨2, 0, 7, ""⟩

/-- Closed instance of `exchangeRequest_vault_omission` at a concrete
envelope. -/
theorem exchangeRequest_vault_omission_witness :
    ("vaultAddress" ∈
      (ExchangeRequest.fields ⟨"act", 7, ⟨"r", "s", 27⟩, some ""⟩).map Prod.fst ↔
      (some "").isSome = true) ∧
    ExchangeRequest.fields ⟨"act", 7, ⟨"r", "s", 27⟩, some ""⟩ ≠
      ExchangeRequest.fields ⟨"act", 7, ⟨"r", "s", 27⟩, none⟩ :=
  exchangeRequest_vault_omission "act" 7 ⟨"r", "s", 27⟩ (some "")

/-- Closed instance of `sizeToWire_zero_decimals` at x = 1.7. -/
theorem sizeToWire_zero_decimals_witness :
    SizeToWire (mkRat 17 10) 0 = ⟨intChars (goTrunc (mkRat 17 10))⟩ ∧
    SizeToWire (mkRat 17 10) 0 = "1" ∧
    SizeToWire (mkRat (-9) 10) 0 = "0" ∧
    SizeToWire (mkRat 17 10) 0 ≠ ⟨intChars (roundScaled (mkRat 17 10) 0)⟩ :=
  sizeToWire_zero_decimals (mkRat 17 10)
